import Mathlib

/-!
# Verification of the sk-buffer buffer algorithms

A shallow embedding of the two buffer algorithms of the `sk` buffer library:

* `sk.circular_buffer` — the fixed-capacity ring buffer of
  `include/sk/buffer/circular_buffer.hxx`.  The C++ object holds a
  `std::array<Char, buffer_size + 1>` together with a read pointer and a
  write pointer into that array; we model the array as a `List α` (whose
  length is the physical storage size, i.e. `buffer_size + 1`) and the two
  pointers as natural-number indices.

* `sk.dynamic_buffer` — the segmented growable buffer of
  `include/sk/buffer/dynamic_buffer.hxx`, a deque of fixed-capacity extents
  plus a write index.  The extent primitive `fixed_buffer` is not part of
  the sources and is modelled from the specification.

Spans returned by the range queries are modelled as `(start, length)` pairs
of indices into the backing list.  C++ `assert` failures (which abort the
program) are modelled by returning `none`; loops whose termination is not
structural are given explicit fuel, chosen large enough that the fuel never
runs out on the paths the theorems traverse.
-/

namespace sk

/-- `listSlice l s n` is the contiguous slice of `l` starting at index `s` of
length `n` (shorter if `l` ends first): the contents of a span `(s, n)`. -/
def listSlice {α : Type} (l : List α) (s n : Nat) : List α :=
  (l.drop s).take n

/-- `copyAt dst s src` overwrites `dst` at positions `s, s+1, ...` with the
elements of `src`, leaving everything else unchanged.  This models
`std::ranges::copy` of `src` into an in-bounds span of `dst` starting at
index `s`. -/
def copyAt {α : Type} (dst : List α) (s : Nat) (src : List α) : List α :=
  dst.take s ++ (src ++ dst.drop (s + src.length))

/-! ## The ring buffer (`circular_buffer.hxx`)

The C++ template `circular_buffer<Char, buffer_size>` owns
`std::array<Char, buffer_size + 1> data` and `read_pointer`/`write_pointer`
iterators into that array.  We keep the array as `data : List α` and the two
iterators as indices; the physical storage size (`b.data.length`) is
`buffer_size + 1`. -/

structure circular_buffer (α : Type) where
  data : List α
  read_pointer : Nat
  write_pointer : Nat
deriving DecidableEq, Repr

namespace circular_buffer

/-- A freshly default-constructed `circular_buffer<Char, size>`: both
pointers at `data.begin()`, storage of `size + 1` elements. -/
def new (α : Type) [Inhabited α] (size : Nat) : circular_buffer α :=
  ⟨List.replicate (size + 1) default, 0, 0⟩

/-- `clear()`: reset both pointers to `data.begin()`. -/
def clear {α : Type} (b : circular_buffer α) : circular_buffer α :=
  { b with read_pointer := 0, write_pointer := 0 }

/-- `writable_ranges()`: at most two spans of free space, as
`(start, length)` pairs.  Mirrors the two branches of the C++ function:
the span from the write pointer to `wend` (the physical end, or one before
it when the read pointer sits at the start), then — after wrapping the
theoretical write pointer — the span up to one before the read pointer. -/
def writable_ranges {α : Type} (b : circular_buffer α) : List (Nat × Nat) :=
  let N := b.data.length
  let r := b.read_pointer
  let w := b.write_pointer
  -- if (read_pointer <= write_pointer)
  let first :=
    if r ≤ w then
      let wend := if r = 0 then N - 1 else N
      let len := wend - w
      let ret1 : List (Nat × Nat) := if len = 0 then [] else [(w, len)]
      let twp := w + len
      let twp := if twp = N ∧ r ≠ 0 then 0 else twp
      (ret1, twp)
    else (([] : List (Nat × Nat)), w)
  let ret1 := first.1
  let twp := first.2
  -- if (read_pointer > theoretical_write_pointer)
  if twp < r then
    let len := r - 1 - twp
    ret1 ++ (if len = 0 then [] else [(twp, len)])
  else ret1

/-- `commit(n)`: advance the write pointer over `n` units of previously
writable space.  The C++ `assert(write_pointer < read_pointer)` in the
second branch aborts the program when the caller commits past the read
pointer; this is modelled by `none`. -/
def commit {α : Type} (b : circular_buffer α) (n : Nat) :
    Option (circular_buffer α × Nat) :=
  let N := b.data.length
  let r := b.read_pointer
  let w := b.write_pointer
  -- if (read_pointer <= write_pointer)
  let first :=
    if r ≤ w then
      let wend := if r = 0 then N - 1 else N
      let can := min (wend - w) n
      let w1 := w + can
      let w1 := if w1 = N ∧ r ≠ 0 then 0 else w1
      (w1, n - can, can)
    else (w, n, 0)
  let w1 := first.1
  let left := first.2.1
  let written := first.2.2
  -- if (read_pointer > write_pointer)
  if w1 < r then
    let can := min (r - 1) left
    let w2 := w1 + can
    if w2 < r then some ({ b with write_pointer := w2 }, written + can)
    else none
  else some ({ b with write_pointer := w1 }, written)

/-- `readable_ranges()`: at most two spans of unread data, as
`(start, length)` pairs. -/
def readable_ranges {α : Type} (b : circular_buffer α) : List (Nat × Nat) :=
  let N := b.data.length
  let r := b.read_pointer
  let w := b.write_pointer
  if r = w then []
  else
    -- if (read_pointer > write_pointer): read up to the end of storage
    let first :=
      if w < r then
        let can := N - r
        let ret1 : List (Nat × Nat) := if can = 0 then [] else [(r, can)]
        let trp := r + can
        let trp := if trp = N then 0 else trp
        (ret1, trp)
      else (([] : List (Nat × Nat)), r)
    let ret1 := first.1
    let trp := first.2
    -- if (read_pointer < write_pointer)
    if trp < w then
      let can := w - trp
      ret1 ++ (if can = 0 then [] else [(trp, can)])
    else ret1

/-- `discard(n)`: advance the read pointer over up to `n` units of readable
data, returning the number of units discarded. -/
def discard {α : Type} (b : circular_buffer α) (n : Nat) :
    circular_buffer α × Nat :=
  let N := b.data.length
  let r := b.read_pointer
  let w := b.write_pointer
  if r = w then (b, 0)
  else
    -- if (read_pointer > write_pointer)
    let first :=
      if w < r then
        let can := min n (N - r)
        let r1 := r + can
        let r1 := if r1 = N then 0 else r1
        (r1, n - can, can)
      else (r, n, 0)
    let r1 := first.1
    let left := first.2.1
    let got := first.2.2
    -- if (read_pointer < write_pointer)
    if r1 < w then
      let can := min left (w - r1)
      ({ b with read_pointer := r1 + can }, got + can)
    else ({ b with read_pointer := r1 }, got)

end circular_buffer

/-- The copying loop of `circular_buffer::write`: for each writable span,
copy as much of the remaining input as fits, stop when the input runs out.
Returns the updated storage and the number of units copied. -/
def writeRangesLoop {α : Type} (ranges : List (Nat × Nat)) (data : List α)
    (src : List α) (acc : Nat) : List α × Nat :=
  match ranges with
  | [] => (data, acc)
  | (s, l) :: rest =>
    let can := min src.length l
    let data' := copyAt data s (src.take can)
    let src' := src.drop can
    if src'.length = 0 then (data', acc + can)
    else writeRangesLoop rest data' src' (acc + can)

/-- The copying loop of `circular_buffer::read`: for each readable span,
copy as much as still fits into the destination, stop when the destination
is full.  `pos` is how far the destination has been filled. -/
def readRangesLoop {α : Type} (ranges : List (Nat × Nat)) (data : List α)
    (dst : List α) (pos : Nat) (acc : Nat) : List α × Nat :=
  match ranges with
  | [] => (dst, acc)
  | (s, l) :: rest =>
    let can := min (dst.length - pos) l
    let dst' := copyAt dst pos (listSlice data s can)
    if dst.length - (pos + can) = 0 then (dst', acc + can)
    else readRangesLoop rest data dst' (pos + can) (acc + can)

namespace circular_buffer

/-- `write(buf)`: copy into the writable spans, then `commit` the amount
copied.  Returns the amount copied (the C++ return value). -/
def write {α : Type} (b : circular_buffer α) (src : List α) :
    Option (circular_buffer α × Nat) :=
  let p := writeRangesLoop b.writable_ranges b.data src 0
  match commit { b with data := p.1 } p.2 with
  | none => none
  | some (b', _) => some (b', p.2)

/-- `read(buf)`: copy from the readable spans into the destination, then
`discard` the amount copied.  Returns the updated buffer, the destination
contents after the copy, and the amount read. -/
def read {α : Type} (b : circular_buffer α) (dst : List α) :
    circular_buffer α × List α × Nat :=
  let p := readRangesLoop b.readable_ranges b.data dst 0 0
  let q := discard b p.2
  (q.1, p.1, p.2)

/-- Total number of readable units (the sum of the readable span lengths). -/
def rtotal {α : Type} (b : circular_buffer α) : Nat :=
  (b.readable_ranges.map Prod.snd).sum

/-- Total number of writable units (the sum of the writable span lengths). -/
def wtotal {α : Type} (b : circular_buffer α) : Nat :=
  (b.writable_ranges.map Prod.snd).sum

/-- The unread data, front to back: contents of the readable spans. -/
def rcontent {α : Type} (b : circular_buffer α) : List α :=
  (b.readable_ranges.map (fun p => listSlice b.data p.1 p.2)).flatten

/-- The contents currently sitting in the writable spans, front to back. -/
def wcontent {α : Type} (b : circular_buffer α) : List α :=
  (b.writable_ranges.map (fun p => listSlice b.data p.1 p.2)).flatten

/-- Well-formedness: both pointers lie strictly inside the backing storage.
This is the state invariant of the C++ object (a pointer is never left
sitting at `data.end()`). -/
def WF {α : Type} (b : circular_buffer α) : Prop :=
  b.read_pointer < b.data.length ∧ b.write_pointer < b.data.length

/-- States reachable from a fresh `circular_buffer<α, size>` through the
public operations.  A `commit` whose internal assertion fails (modelled by
`none`) aborts the program, so it produces no successor state. -/
inductive Reachable (α : Type) [Inhabited α] (size : Nat) :
    circular_buffer α → Prop
  | new : Reachable α size (circular_buffer.new α size)
  | write {b b' : circular_buffer α} {src : List α} {k : Nat} :
      Reachable α size b → b.write src = some (b', k) → Reachable α size b'
  | read {b : circular_buffer α} {dst : List α} :
      Reachable α size b → Reachable α size (b.read dst).1
  | discard {b : circular_buffer α} {n : Nat} :
      Reachable α size b → Reachable α size (b.discard n).1
  | commit {b b' : circular_buffer α} {n k : Nat} :
      Reachable α size b → b.commit n = some (b', k) → Reachable α size b'
  | clear {b : circular_buffer α} :
      Reachable α size b → Reachable α size b.clear

end circular_buffer

/-! ## The extent primitive (`fixed_buffer`) -/

/-- Modelled from the spec: the extent primitive `fixed_buffer` used as the
segment type of `dynamic_buffer` is not among the repository sources.  Per
the spec it is a single fixed-capacity, non-wrapping contiguous region with
independent read and write cursors, exposing the same
write/read/commit/discard contract over that one region: the readable
window is `[r, w)`, the writable window is `[w, capacity)`, writes and
commits advance `w`, reads and discards advance `r`, and each operation
processes `min(requested, window size)` units. -/
structure fixed_buffer (α : Type) where
  buf : List α
  r : Nat
  w : Nat
deriving DecidableEq, Repr

namespace fixed_buffer

/-- Size of the readable window `[r, w)` (C++ `read_window.size()`). -/
def read_window_size {α : Type} (e : fixed_buffer α) : Nat := e.w - e.r

/-- Size of the writable window `[w, capacity)` (C++ `write_window.size()`). -/
def write_window_size {α : Type} (e : fixed_buffer α) : Nat :=
  e.buf.length - e.w

/-- Contents of the readable window. -/
def read_window {α : Type} (e : fixed_buffer α) : List α :=
  listSlice e.buf e.r (e.w - e.r)

/-- A freshly default-constructed extent of the given capacity. -/
def mkFresh (α : Type) [Inhabited α] (cap : Nat) : fixed_buffer α :=
  ⟨List.replicate cap default, 0, 0⟩

/-- Modelled from the spec: extent `write` copies as much of the source as
fits into the writable window and advances the write cursor, returning the
number of units accepted. -/
def write {α : Type} (e : fixed_buffer α) (src : List α) :
    fixed_buffer α × Nat :=
  let can := min src.length (e.buf.length - e.w)
  ({ e with buf := copyAt e.buf e.w (src.take can), w := e.w + can }, can)

/-- Modelled from the spec: extent `commit` marks up to `n` units of the
writable window as containing data (advances the write cursor), returning
the number of units committed. -/
def commit {α : Type} (e : fixed_buffer α) (n : Nat) : fixed_buffer α × Nat :=
  let can := min n (e.buf.length - e.w)
  ({ e with w := e.w + can }, can)

/-- Modelled from the spec: extent `read` copies up to `cap` units out of
the readable window (`cap` is the remaining room in the destination) and
advances the read cursor, returning the units read. -/
def read {α : Type} (e : fixed_buffer α) (cap : Nat) :
    fixed_buffer α × List α :=
  let can := min cap (e.w - e.r)
  ({ e with r := e.r + can }, listSlice e.buf e.r can)

/-- Modelled from the spec: extent `discard` removes up to `n` units from
the readable window (advances the read cursor), returning the number of
units discarded. -/
def discard {α : Type} (e : fixed_buffer α) (n : Nat) : fixed_buffer α × Nat :=
  let can := min n (e.w - e.r)
  ({ e with r := e.r + can }, can)

/-- Extent well-formedness: capacity `esize`, cursors ordered and in range. -/
def WF {α : Type} (esize : Nat) (e : fixed_buffer α) : Prop :=
  e.buf.length = esize ∧ e.r ≤ e.w ∧ e.w ≤ esize

end fixed_buffer

/-! ## The segmented growable buffer (`dynamic_buffer.hxx`)

`dynamic_buffer<Char, extent_bytes>` keeps `std::deque<fixed_buffer> extents`
and `write_pointer`, the index of the first extent accepting writes.  The
deque is modelled as a list (front = index 0). -/

structure dynamic_buffer (α : Type) where
  extent_size : Nat
  extents : List (fixed_buffer α)
  write_pointer : Nat
deriving DecidableEq, Repr

namespace dynamic_buffer

/-- A freshly constructed `dynamic_buffer`: no extents, write index 0. -/
def new (α : Type) (esize : Nat) : dynamic_buffer α := ⟨esize, [], 0⟩

/-- `minfree`: the low-water mark, half an extent. -/
def minfree {α : Type} (b : dynamic_buffer α) : Nat := b.extent_size / 2

/-- `ensure_minfree()`: if there is no extent, or the *last* extent's
writable window is below `minfree`, append a fresh extent; after appending,
if the extent at `write_pointer` has no writable space left, advance
`write_pointer`.  (`extents[write_pointer]` with `write_pointer` out of
range is undefined behaviour in C++; the model reads a fresh extent there,
whose writable window is nonzero, so the pointer is not advanced.) -/
def ensure_minfree {α : Type} [Inhabited α] (b : dynamic_buffer α) :
    dynamic_buffer α :=
  -- if (extents.empty() || extents.back().write_window.size() < minfree)
  let needs :=
    match b.extents.getLast? with
    | none => true
    | some e => decide (e.write_window_size < b.minfree)
  if needs then
    let exts := b.extents ++ [fixed_buffer.mkFresh α b.extent_size]
    -- if (extents[write_pointer].write_window.size() == 0) ++write_pointer;
    let wp :=
      if (exts.getD b.write_pointer
            (fixed_buffer.mkFresh α b.extent_size)).write_window_size = 0
      then b.write_pointer + 1
      else b.write_pointer
    { b with extents := exts, write_pointer := wp }
  else b

end dynamic_buffer

/-- The loop of `dynamic_buffer::commit`: commit as much as possible into
the extent at `wp`, advancing `wp` once an extent is filled, until `left`
units are accounted for.  `none` models the C++ assertion failures
(`write_pointer < extents.size()` and `m > 0`).  Fuel
`extents.length + 1 - wp` is exact: the loop advances `wp` every iteration,
so it can run at most that often before the bounds assertion fires. -/
def commitLoop {α : Type} (fuel : Nat) (exts : List (fixed_buffer α))
    (wp left : Nat) : Option (List (fixed_buffer α) × Nat) :=
  match fuel with
  | 0 => none
  | fuel + 1 =>
    -- assert(write_pointer < extents.size())
    if h : wp < exts.length then
      let p := (exts.get ⟨wp, h⟩).commit left
      -- assert(m > 0)
      if p.2 = 0 then none
      else
        let exts' := exts.set wp p.1
        if left - p.2 = 0 then some (exts', wp)
        else commitLoop fuel exts' (wp + 1) (left - p.2)
    else none

/-- The loop of `dynamic_buffer::write`: append a fresh extent whenever the
write index runs off the end of the deque, write as much as fits into the
extent at `wp`, advance and repeat until the input is consumed.  `none`
arises only from fuel exhaustion or an out-of-range write index (undefined
behaviour in C++); the adequacy lemmas show the fuel chosen by `write`
suffices. -/
def writeLoop {α : Type} [Inhabited α] (fuel esize : Nat)
    (exts : List (fixed_buffer α)) (wp : Nat) (buf : List α) :
    Option (List (fixed_buffer α) × Nat) :=
  match fuel with
  | 0 => none
  | fuel + 1 =>
    -- if (write_pointer == extents.size()) extents.emplace_back();
    let exts := if wp = exts.length then exts ++ [fixed_buffer.mkFresh α esize]
                else exts
    if h : wp < exts.length then
      let p := (exts.get ⟨wp, h⟩).write buf
      let exts' := exts.set wp p.1
      let buf' := buf.drop p.2
      if buf'.length = 0 then some (exts', wp)
      else writeLoop fuel esize exts' (wp + 1) buf'
    else none

/-- The loop of `dynamic_buffer::read`: read from the front extent, remove
it when it is dead (no readable data and no writable space — the C++
`remove_front`, which also decrements a positive `write_pointer`), stop
when the destination is full or no data remains at the front.  `acc` is the
data read so far. -/
def readLoop {α : Type} (fuel : Nat) (exts : List (fixed_buffer α))
    (wp remaining : Nat) (acc : List α) :
    Option (List (fixed_buffer α) × Nat × List α) :=
  match fuel with
  | 0 => none
  | fuel + 1 =>
    match exts with
    | [] => some ([], wp, acc)
    | front :: rest =>
      if front.read_window_size = 0 then some (front :: rest, wp, acc)
      else
        let p := front.read remaining
        let next :=
          if p.1.read_window_size = 0 ∧ p.1.write_window_size = 0 then
            (rest, wp - 1)  -- remove_front(); (wp - 1 = 0 when wp = 0)
          else (p.1 :: rest, wp)
        if remaining - p.2.length = 0 then some (next.1, next.2, acc ++ p.2)
        else readLoop fuel next.1 next.2 (remaining - p.2.length) (acc ++ p.2)

/-- The loop of `dynamic_buffer::discard`: discard from the front extent,
remove dead front extents, stop when `n` units were discarded or no data
remains at the front. -/
def discardLoop {α : Type} (fuel : Nat) (exts : List (fixed_buffer α))
    (wp n nleft discards : Nat) :
    Option (List (fixed_buffer α) × Nat × Nat) :=
  match fuel with
  | 0 => none
  | fuel + 1 =>
    match exts with
    | [] => some ([], wp, discards)
    | front :: rest =>
      if front.read_window_size = 0 then some (front :: rest, wp, discards)
      else
        let p := front.discard nleft
        let next :=
          if p.1.read_window_size = 0 ∧ p.1.write_window_size = 0 then
            (rest, wp - 1)  -- remove_front()
          else (p.1 :: rest, wp)
        if discards + p.2 = n then some (next.1, next.2, discards + p.2)
        else discardLoop fuel next.1 next.2 n (nleft - p.2) (discards + p.2)

namespace dynamic_buffer

/-- `commit(n)`: returns 0 immediately when `n = 0`; otherwise runs the
commit loop and calls `ensure_minfree` before returning `n`. -/
def commit {α : Type} [Inhabited α] (b : dynamic_buffer α) (n : Nat) :
    Option (dynamic_buffer α × Nat) :=
  if n = 0 then some (b, 0)
  else
    match commitLoop (b.extents.length + 1 - b.write_pointer) b.extents
        b.write_pointer n with
    | none => none
    | some (exts', wp') =>
      some (ensure_minfree { b with extents := exts', write_pointer := wp' }, n)

/-- `write(data)`: returns 0 for an empty source; otherwise runs the write
loop (which always consumes the whole source), calls `ensure_minfree`, and
returns the source length. -/
def write {α : Type} [Inhabited α] (b : dynamic_buffer α) (src : List α) :
    Option (dynamic_buffer α × Nat) :=
  if src.length = 0 then some (b, 0)
  else
    match writeLoop (src.length + b.extents.length + 1) b.extent_size
        b.extents b.write_pointer src with
    | none => none
    | some (exts', wp') =>
      some (ensure_minfree { b with extents := exts', write_pointer := wp' },
            src.length)

/-- `read(data)`: `dstcap` is the destination size; returns the data read
(the filled prefix of the destination), at most `dstcap` units. -/
def read {α : Type} (b : dynamic_buffer α) (dstcap : Nat) :
    Option (dynamic_buffer α × List α) :=
  if dstcap = 0 then some (b, [])
  else
    match readLoop (dstcap + 1) b.extents b.write_pointer dstcap [] with
    | none => none
    | some (exts', wp', out) =>
      some ({ b with extents := exts', write_pointer := wp' }, out)

/-- `discard(n)`: removes up to `n` units from the front of readable data,
returning the number discarded. -/
def discard {α : Type} (b : dynamic_buffer α) (n : Nat) :
    Option (dynamic_buffer α × Nat) :=
  match discardLoop (n + 1) b.extents b.write_pointer n n 0 with
  | none => none
  | some (exts', wp', k) =>
    some ({ b with extents := exts', write_pointer := wp' }, k)

/-- `readable_ranges()`: the readable window of every extent, front to
back, skipping extents with no readable data.  Spans are modelled by their
contents. -/
def readable_ranges {α : Type} (b : dynamic_buffer α) : List (List α) :=
  (b.extents.filter (fun e => e.read_window_size != 0)).map
    fixed_buffer.read_window

/-- `writable_ranges()`: run `ensure_minfree`, then collect the writable
window of every extent from `write_pointer` on.  Spans are modelled by
their sizes.  `none` models the C++ assertion failures
(`write_pointer < extents.size()`; every collected extent has free space;
every extent strictly after `write_pointer` is completely empty). -/
def writable_ranges {α : Type} [Inhabited α] (b : dynamic_buffer α) :
    Option (dynamic_buffer α × List Nat) :=
  let b' := ensure_minfree b
  if b'.write_pointer < b'.extents.length then
    let tail := b'.extents.drop b'.write_pointer
    if (tail.all fun e => e.write_window_size != 0) &&
       ((tail.drop 1).all fun e => e.write_window_size == b'.extent_size) then
      some (b', tail.map fixed_buffer.write_window_size)
    else none
  else none

/-- The unread data of an extent list, front to back. -/
def contentOf {α : Type} (exts : List (fixed_buffer α)) : List α :=
  (exts.map fixed_buffer.read_window).flatten

/-- Total unread units of an extent list. -/
def rtotalOf {α : Type} (exts : List (fixed_buffer α)) : Nat :=
  (exts.map fixed_buffer.read_window_size).sum

/-- The unread data of the whole buffer, front to back. -/
def content {α : Type} (b : dynamic_buffer α) : List α :=
  contentOf b.extents

/-- Total number of unread units. -/
def rtotal {α : Type} (b : dynamic_buffer α) : Nat :=
  rtotalOf b.extents

/-- The state invariant of the deque of extents together with the write
index: the write index inside (or one past) the deque; every extent
well-formed; every extent before the write index fully written; every
extent strictly after it untouched; only the front extent may have a
nonzero read cursor; and the front extent is never dead (a dead front is
removed as soon as it arises). -/
def extsWF {α : Type} (esize : Nat) (exts : List (fixed_buffer α))
    (wp : Nat) : Prop :=
  wp ≤ exts.length ∧
  (∀ i (h : i < exts.length), fixed_buffer.WF esize (exts[i])) ∧
  (∀ i (h : i < exts.length), i < wp →
    (exts[i]).write_window_size = 0) ∧
  (∀ i (h : i < exts.length), wp < i →
    (exts[i]).r = 0 ∧ (exts[i]).w = 0) ∧
  (∀ i (h : i < exts.length), 0 < i → (exts[i]).r = 0) ∧
  (∀ h : 0 < exts.length,
    ¬((exts[0]).read_window_size = 0 ∧
      (exts[0]).write_window_size = 0))

/-- The state invariant of `dynamic_buffer`, maintained by every public
operation: a positive extent size and a well-formed extent deque. -/
def INV {α : Type} (b : dynamic_buffer α) : Prop :=
  0 < b.extent_size ∧ extsWF b.extent_size b.extents b.write_pointer

/-- States reachable from a fresh `dynamic_buffer` (of positive extent
size) through the public operations.  Operations whose internal assertion
fails (modelled by `none`) abort the program and produce no successor. -/
inductive DReachable (α : Type) [Inhabited α] (esize : Nat) :
    dynamic_buffer α → Prop
  | new : 0 < esize → DReachable α esize (dynamic_buffer.new α esize)
  | write {b b' : dynamic_buffer α} {src : List α} {k : Nat} :
      DReachable α esize b → b.write src = some (b', k) →
      DReachable α esize b'
  | read {b b' : dynamic_buffer α} {cap : Nat} {out : List α} :
      DReachable α esize b → b.read cap = some (b', out) →
      DReachable α esize b'
  | discard {b b' : dynamic_buffer α} {n k : Nat} :
      DReachable α esize b → b.discard n = some (b', k) →
      DReachable α esize b'
  | commit {b b' : dynamic_buffer α} {n k : Nat} :
      DReachable α esize b → b.commit n = some (b', k) →
      DReachable α esize b'
  | wranges {b b' : dynamic_buffer α} {spans : List Nat} :
      DReachable α esize b → b.writable_ranges = some (b', spans) →
      DReachable α esize b'

end dynamic_buffer

/-! ## Basic slice/copy lemmas -/

theorem copyAt_length {α : Type} (dst src : List α) (s : Nat)
    (h : s + src.length ≤ dst.length) :
    (copyAt dst s src).length = dst.length := by
  unfold copyAt
  simp only [List.length_append, List.length_take, List.length_drop]
  omega

theorem listSlice_length {α : Type} (l : List α) (s n : Nat) :
    (listSlice l s n).length = min n (l.length - s) := by
  simp [listSlice, List.length_take, List.length_drop]

theorem listSlice_zero_full {α : Type} (l : List α) :
    listSlice l 0 l.length = l := by
  simp [listSlice]

theorem listSlice_add {α : Type} (l : List α) (s a b : Nat) :
    listSlice l s (a + b) = listSlice l s a ++ listSlice l (s + a) b := by
  unfold listSlice
  rw [List.take_add, List.drop_drop]

theorem listSlice_drop {α : Type} (l : List α) (s n k : Nat) :
    (listSlice l s n).drop k = listSlice l (s + k) (n - k) := by
  unfold listSlice
  rw [List.drop_take, List.drop_drop]

theorem listSlice_take {α : Type} (l : List α) (s n k : Nat) (h : k ≤ n) :
    (listSlice l s n).take k = listSlice l s k := by
  unfold listSlice
  rw [List.take_take, Nat.min_eq_left h]

theorem listSlice_copyAt_self {α : Type} (dst src : List α) (s : Nat)
    (h : s + src.length ≤ dst.length) :
    listSlice (copyAt dst s src) s src.length = src := by
  have hA : (dst.take s).length = s := by
    simp only [List.length_take]; omega
  unfold listSlice copyAt
  rw [List.drop_append_eq_append_drop, hA, Nat.sub_self,
      List.drop_eq_nil_of_le (le_of_eq hA), List.nil_append, List.drop_zero,
      List.take_append_eq_append_take, Nat.sub_self, List.take_zero,
      List.append_nil, List.take_length]

theorem listSlice_copyAt_left {α : Type} (dst src : List α) (s s' n : Nat)
    (h : s' + n ≤ s) (hs : s ≤ dst.length) :
    listSlice (copyAt dst s src) s' n = listSlice dst s' n := by
  have hA : (dst.take s).length = s := by
    simp only [List.length_take]; omega
  unfold listSlice copyAt
  rw [List.drop_append_eq_append_drop, hA, List.take_append_eq_append_take]
  have h1 : n - ((dst.take s).drop s').length = 0 := by
    simp only [List.length_drop, hA]; omega
  rw [h1, List.take_zero, List.append_nil, List.drop_take, List.take_take,
      Nat.min_eq_left (by omega : n ≤ s - s')]

theorem listSlice_copyAt_right {α : Type} (dst src : List α) (s s' n : Nat)
    (h : s + src.length ≤ s') (hs : s + src.length ≤ dst.length) :
    listSlice (copyAt dst s src) s' n = listSlice dst s' n := by
  have hA : (dst.take s).length = s := by
    simp only [List.length_take]; omega
  unfold listSlice copyAt
  rw [List.drop_append_eq_append_drop, hA,
      List.drop_eq_nil_of_le (by rw [hA]; omega : (dst.take s).length ≤ s'),
      List.nil_append, List.drop_append_eq_append_drop,
      List.drop_eq_nil_of_le (by omega : src.length ≤ s' - s),
      List.nil_append, List.drop_drop]
  have : s + src.length + (s' - s - src.length) = s' := by omega
  rw [this]

/-! ## Ring buffer: closed forms of the range queries -/

theorem writable_ranges_r0 {α : Type} (b : circular_buffer α)
    (h : b.read_pointer = 0) (hw : b.write_pointer < b.data.length) :
    b.writable_ranges =
      if b.data.length - 1 - b.write_pointer = 0 then []
      else [(b.write_pointer, b.data.length - 1 - b.write_pointer)] := by
  unfold circular_buffer.writable_ranges
  dsimp only
  rw [h, if_pos (Nat.zero_le b.write_pointer), if_pos rfl]
  have h1 : ¬(b.write_pointer + (b.data.length - 1 - b.write_pointer) =
      b.data.length ∧ ¬(0 : Nat) = 0) := by
    intro hc; exact hc.2 rfl
  rw [if_neg h1]
  dsimp only
  rw [if_neg (by omega : ¬b.write_pointer +
    (b.data.length - 1 - b.write_pointer) < 0)]

theorem writable_ranges_mid {α : Type} (b : circular_buffer α)
    (h0 : 0 < b.read_pointer) (hrw : b.read_pointer ≤ b.write_pointer)
    (hw : b.write_pointer < b.data.length) :
    b.writable_ranges =
      (b.write_pointer, b.data.length - b.write_pointer) ::
        (if b.read_pointer - 1 = 0 then []
         else [(0, b.read_pointer - 1)]) := by
  have hr0 : ¬b.read_pointer = 0 := by omega
  have hlen : ¬b.data.length - b.write_pointer = 0 := by omega
  have htwp : b.write_pointer + (b.data.length - b.write_pointer) =
      b.data.length := by omega
  unfold circular_buffer.writable_ranges
  dsimp only
  rw [if_pos hrw, if_neg hr0, if_neg hlen,
    if_pos (⟨htwp, hr0⟩ : _ ∧ ¬_)]
  dsimp only
  rw [if_pos h0]
  simp

theorem writable_ranges_wrapped {α : Type} (b : circular_buffer α)
    (h : b.write_pointer < b.read_pointer) :
    b.writable_ranges =
      if b.read_pointer - 1 - b.write_pointer = 0 then []
      else [(b.write_pointer, b.read_pointer - 1 - b.write_pointer)] := by
  unfold circular_buffer.writable_ranges
  dsimp only
  rw [if_neg (by omega : ¬b.read_pointer ≤ b.write_pointer)]
  dsimp only
  rw [if_pos h]
  simp

theorem readable_ranges_empty {α : Type} (b : circular_buffer α)
    (h : b.read_pointer = b.write_pointer) :
    b.readable_ranges = [] := by
  unfold circular_buffer.readable_ranges
  dsimp only
  rw [if_pos h]

theorem readable_ranges_lt {α : Type} (b : circular_buffer α)
    (h : b.read_pointer < b.write_pointer) :
    b.readable_ranges =
      [(b.read_pointer, b.write_pointer - b.read_pointer)] := by
  unfold circular_buffer.readable_ranges
  dsimp only
  rw [if_neg (by omega : ¬b.read_pointer = b.write_pointer),
    if_neg (by omega : ¬b.write_pointer < b.read_pointer)]
  dsimp only
  rw [if_pos h, if_neg (by omega : ¬b.write_pointer - b.read_pointer = 0)]
  simp

theorem readable_ranges_gt {α : Type} (b : circular_buffer α)
    (h : b.write_pointer < b.read_pointer)
    (hr : b.read_pointer < b.data.length) :
    b.readable_ranges =
      (b.read_pointer, b.data.length - b.read_pointer) ::
        (if b.write_pointer = 0 then [] else [(0, b.write_pointer)]) := by
  have h2 : ¬b.data.length - b.read_pointer = 0 := by omega
  have h3 : b.read_pointer + (b.data.length - b.read_pointer) =
      b.data.length := by omega
  unfold circular_buffer.readable_ranges
  dsimp only
  rw [if_neg (by omega : ¬b.read_pointer = b.write_pointer), if_pos h,
    if_neg h2, if_pos h3]
  dsimp only
  by_cases hw : b.write_pointer = 0
  · rw [if_neg (by omega : ¬(0 : Nat) < b.write_pointer), hw]
    simp
  · rw [if_pos (by omega : 0 < b.write_pointer),
      if_neg (by simpa using hw : ¬b.write_pointer - 0 = 0)]
    simp [hw]

/-! ## Ring buffer: totals and contents in closed form -/

theorem rtotal_empty {α : Type} (b : circular_buffer α)
    (h : b.read_pointer = b.write_pointer) : b.rtotal = 0 := by
  simp [circular_buffer.rtotal, readable_ranges_empty b h]

theorem rtotal_lt {α : Type} (b : circular_buffer α)
    (h : b.read_pointer < b.write_pointer) :
    b.rtotal = b.write_pointer - b.read_pointer := by
  simp [circular_buffer.rtotal, readable_ranges_lt b h]

theorem rtotal_gt {α : Type} (b : circular_buffer α)
    (h : b.write_pointer < b.read_pointer)
    (hr : b.read_pointer < b.data.length) :
    b.rtotal = (b.data.length - b.read_pointer) + b.write_pointer := by
  by_cases hw : b.write_pointer = 0 <;>
    simp [circular_buffer.rtotal, readable_ranges_gt b h hr, hw]

theorem rcontent_empty {α : Type} (b : circular_buffer α)
    (h : b.read_pointer = b.write_pointer) : b.rcontent = [] := by
  simp [circular_buffer.rcontent, readable_ranges_empty b h]

theorem rcontent_lt {α : Type} (b : circular_buffer α)
    (h : b.read_pointer < b.write_pointer) :
    b.rcontent =
      listSlice b.data b.read_pointer (b.write_pointer - b.read_pointer) := by
  simp [circular_buffer.rcontent, readable_ranges_lt b h]

theorem rcontent_gt {α : Type} (b : circular_buffer α)
    (h : b.write_pointer < b.read_pointer)
    (hr : b.read_pointer < b.data.length) :
    b.rcontent =
      listSlice b.data b.read_pointer (b.data.length - b.read_pointer) ++
        listSlice b.data 0 b.write_pointer := by
  by_cases hw : b.write_pointer = 0 <;>
    simp [circular_buffer.rcontent, readable_ranges_gt b h hr, hw, listSlice]

theorem wtotal_r0 {α : Type} (b : circular_buffer α)
    (h : b.read_pointer = 0) (hw : b.write_pointer < b.data.length) :
    b.wtotal = b.data.length - 1 - b.write_pointer := by
  rw [circular_buffer.wtotal, writable_ranges_r0 b h hw]
  split <;> simp_all

theorem wtotal_mid {α : Type} (b : circular_buffer α)
    (h0 : 0 < b.read_pointer) (hrw : b.read_pointer ≤ b.write_pointer)
    (hw : b.write_pointer < b.data.length) :
    b.wtotal = (b.data.length - b.write_pointer) + (b.read_pointer - 1) := by
  rw [circular_buffer.wtotal, writable_ranges_mid b h0 hrw hw]
  split <;> simp_all

theorem wtotal_wrapped {α : Type} (b : circular_buffer α)
    (h : b.write_pointer < b.read_pointer) :
    b.wtotal = b.read_pointer - 1 - b.write_pointer := by
  rw [circular_buffer.wtotal, writable_ranges_wrapped b h]
  split <;> simp_all

theorem wcontent_r0 {α : Type} (b : circular_buffer α)
    (h : b.read_pointer = 0) (hw : b.write_pointer < b.data.length) :
    b.wcontent =
      listSlice b.data b.write_pointer
        (b.data.length - 1 - b.write_pointer) := by
  rw [circular_buffer.wcontent, writable_ranges_r0 b h hw]
  split <;> simp_all [listSlice]

theorem wcontent_mid {α : Type} (b : circular_buffer α)
    (h0 : 0 < b.read_pointer) (hrw : b.read_pointer ≤ b.write_pointer)
    (hw : b.write_pointer < b.data.length) :
    b.wcontent =
      listSlice b.data b.write_pointer (b.data.length - b.write_pointer) ++
        listSlice b.data 0 (b.read_pointer - 1) := by
  rw [circular_buffer.wcontent, writable_ranges_mid b h0 hrw hw]
  split <;> simp_all [listSlice]

theorem wcontent_wrapped {α : Type} (b : circular_buffer α)
    (h : b.write_pointer < b.read_pointer) :
    b.wcontent =
      listSlice b.data b.write_pointer
        (b.read_pointer - 1 - b.write_pointer) := by
  rw [circular_buffer.wcontent, writable_ranges_wrapped b h]
  split <;> simp_all [listSlice]

theorem rtotal_add_wtotal {α : Type} (b : circular_buffer α) (hb : b.WF) :
    b.rtotal + b.wtotal = b.data.length - 1 := by
  obtain ⟨hr, hw⟩ := hb
  rcases Nat.lt_trichotomy b.read_pointer b.write_pointer with h | h | h
  · rw [rtotal_lt b h]
    rcases Nat.eq_zero_or_pos b.read_pointer with h0 | h0
    · rw [wtotal_r0 b h0 hw]; omega
    · rw [wtotal_mid b h0 (le_of_lt h) hw]; omega
  · rw [rtotal_empty b h]
    rcases Nat.eq_zero_or_pos b.read_pointer with h0 | h0
    · rw [wtotal_r0 b h0 hw]; omega
    · rw [wtotal_mid b h0 (le_of_eq h) hw]; omega
  · rw [rtotal_gt b h hr, wtotal_wrapped b h]; omega

theorem rtotal_eq_length_rcontent {α : Type} (b : circular_buffer α)
    (hb : b.WF) : b.rcontent.length = b.rtotal := by
  obtain ⟨hr, hw⟩ := hb
  rcases Nat.lt_trichotomy b.read_pointer b.write_pointer with h | h | h
  · rw [rtotal_lt b h, rcontent_lt b h, listSlice_length]; omega
  · rw [rtotal_empty b h, rcontent_empty b h]; rfl
  · rw [rtotal_gt b h hr, rcontent_gt b h hr]
    simp only [List.length_append, listSlice_length]
    omega

/-! ## Ring buffer: `commit` -/

theorem commit_eq {α : Type} (b : circular_buffer α) (n : Nat) (hb : b.WF)
    (hn : n ≤ b.wtotal) :
    b.commit n =
      some ({ b with write_pointer :=
                (b.write_pointer + n) % b.data.length }, n) := by
  obtain ⟨hr, hw⟩ := hb
  unfold circular_buffer.commit
  dsimp only
  rcases Nat.lt_or_ge b.write_pointer b.read_pointer with h | h
  · -- write pointer behind read pointer: the single second-branch span
    have hn' : n ≤ b.read_pointer - 1 - b.write_pointer := by
      rw [wtotal_wrapped b h] at hn; exact hn
    rw [if_neg (by omega : ¬b.read_pointer ≤ b.write_pointer)]
    dsimp only
    rw [if_pos h, Nat.min_eq_right (by omega : n ≤ b.read_pointer - 1),
      if_pos (by omega : b.write_pointer + n < b.read_pointer),
      Nat.mod_eq_of_lt (by omega : b.write_pointer + n < b.data.length),
      Nat.zero_add]
  · have hrw : b.read_pointer ≤ b.write_pointer := h
    rw [if_pos hrw]
    by_cases hr0 : b.read_pointer = 0
    · -- read pointer at the start: write up to one before the end, no wrap
      have hn' : n ≤ b.data.length - 1 - b.write_pointer := by
        rw [wtotal_r0 b hr0 hw] at hn; exact hn
      rw [if_pos hr0,
        Nat.min_eq_right (by omega : n ≤ b.data.length - 1 - b.write_pointer)]
      dsimp only
      rw [if_neg (show ¬(b.write_pointer + n = b.data.length ∧
        ¬b.read_pointer = 0) from fun hc => hc.2 hr0)]
      try dsimp only
      rw [if_neg (by omega : ¬b.write_pointer + n < b.read_pointer),
        Nat.mod_eq_of_lt (by omega : b.write_pointer + n < b.data.length)]
    · -- read pointer inside: write to the end, wrap, then continue at 0
      have hn' : n ≤ (b.data.length - b.write_pointer) +
          (b.read_pointer - 1) := by
        rw [wtotal_mid b (by omega) hrw hw] at hn; exact hn
      rw [if_neg hr0]
      rcases Nat.lt_trichotomy (b.write_pointer + n) b.data.length
        with hlt | heq | hgt
      · rw [Nat.min_eq_right (by omega : n ≤ b.data.length - b.write_pointer)]
        dsimp only
        rw [if_neg (show ¬(b.write_pointer + n = b.data.length ∧
          ¬b.read_pointer = 0) from fun hc => absurd hc.1 (by omega))]
        try dsimp only
        rw [if_neg (by omega : ¬b.write_pointer + n < b.read_pointer),
          Nat.mod_eq_of_lt hlt]
      · rw [Nat.min_eq_right (by omega : n ≤ b.data.length - b.write_pointer)]
        dsimp only
        rw [if_pos (show b.write_pointer + n = b.data.length ∧
          ¬b.read_pointer = 0 from ⟨heq, hr0⟩)]
        try dsimp only
        rw [if_pos (by omega : 0 < b.read_pointer), Nat.sub_self,
          Nat.min_zero, Nat.add_zero, if_pos (by omega : 0 < b.read_pointer),
          Nat.add_zero, heq, Nat.mod_self]
      · rw [Nat.min_eq_left (by omega :
          b.data.length - b.write_pointer ≤ n)]
        dsimp only
        rw [if_pos (show b.write_pointer +
          (b.data.length - b.write_pointer) = b.data.length ∧
          ¬b.read_pointer = 0 from ⟨by omega, hr0⟩)]
        try dsimp only
        rw [if_pos (by omega : 0 < b.read_pointer),
          Nat.min_eq_right (by omega :
            n - (b.data.length - b.write_pointer) ≤ b.read_pointer - 1),
          Nat.zero_add,
          if_pos (by omega :
            n - (b.data.length - b.write_pointer) < b.read_pointer)]
        have hm : (b.write_pointer + n) % b.data.length =
            n - (b.data.length - b.write_pointer) := by
          rw [Nat.mod_eq_sub_mod (by omega),
            Nat.mod_eq_of_lt (by omega)]
          omega
        rw [hm]
        have hc : b.data.length - b.write_pointer +
            (n - (b.data.length - b.write_pointer)) = n := by omega
        rw [hc]

theorem listSlice_zero {α : Type} (l : List α) (s : Nat) :
    listSlice l s 0 = [] := rfl

theorem listSlice_append_take_left {α : Type} (l B : List α) (s m n : Nat)
    (h : n ≤ m) (hs : s + m ≤ l.length) :
    (listSlice l s m ++ B).take n = listSlice l s n := by
  rw [List.take_append_of_le_length
      (by rw [listSlice_length]; omega), listSlice_take l s m n h]

theorem listSlice_append_take_right {α : Type} (l B : List α) (s m n : Nat)
    (hm : m ≤ n) (hs : s + m ≤ l.length) :
    (listSlice l s m ++ B).take n = listSlice l s m ++ B.take (n - m) := by
  rw [List.take_append_eq_append_take,
    List.take_of_length_le (by rw [listSlice_length]; omega)]
  congr 2
  rw [listSlice_length]
  omega

theorem rcontent_le {α : Type} (b : circular_buffer α)
    (h : b.read_pointer ≤ b.write_pointer) :
    b.rcontent =
      listSlice b.data b.read_pointer
        (b.write_pointer - b.read_pointer) := by
  rcases Nat.lt_or_ge b.read_pointer b.write_pointer with h1 | h1
  · exact rcontent_lt b h1
  · have he : b.read_pointer = b.write_pointer := by omega
    rw [rcontent_empty b he, he, Nat.sub_self, listSlice_zero]

theorem rtotal_le {α : Type} (b : circular_buffer α)
    (h : b.read_pointer ≤ b.write_pointer) :
    b.rtotal = b.write_pointer - b.read_pointer := by
  rcases Nat.lt_or_ge b.read_pointer b.write_pointer with h1 | h1
  · exact rtotal_lt b h1
  · have he : b.read_pointer = b.write_pointer := by omega
    rw [rtotal_empty b he, he, Nat.sub_self]

theorem commit_rcontent {α : Type} (b : circular_buffer α) (n : Nat)
    (hb : b.WF) (hn : n ≤ b.wtotal) :
    circular_buffer.rcontent { b with write_pointer :=
        (b.write_pointer + n) % b.data.length } =
      b.rcontent ++ b.wcontent.take n := by
  obtain ⟨hr, hw⟩ := hb
  rcases Nat.lt_or_ge b.write_pointer b.read_pointer with hgt | hle'
  · -- w < r : single writable span [w, r-1), no wrap possible
    have hn' : n ≤ b.read_pointer - 1 - b.write_pointer := by
      rw [wtotal_wrapped b hgt] at hn; exact hn
    rw [rcontent_gt b hgt hr, wcontent_wrapped b hgt,
      Nat.mod_eq_of_lt (by omega : b.write_pointer + n < b.data.length),
      rcontent_gt { b with write_pointer := b.write_pointer + n }
        (by dsimp only; omega) (by dsimp only; omega)]
    dsimp only
    rw [listSlice_take _ _ _ _ (by omega : n ≤ b.read_pointer - 1 -
      b.write_pointer)]
    have h1 : listSlice b.data 0 (b.write_pointer + n) =
        listSlice b.data 0 b.write_pointer ++
          listSlice b.data b.write_pointer n := by
      have h2 := listSlice_add b.data 0 b.write_pointer n
      simpa using h2
    rw [h1, ← List.append_assoc]
  · have hle : b.read_pointer ≤ b.write_pointer := hle'
    rw [rcontent_le b hle]
    by_cases hr0 : b.read_pointer = 0
    · -- r = 0 : single writable span, the write pointer cannot reach N
      have hn' : n ≤ b.data.length - 1 - b.write_pointer := by
        rw [wtotal_r0 b hr0 hw] at hn; exact hn
      rw [wcontent_r0 b hr0 hw,
        Nat.mod_eq_of_lt (by omega : b.write_pointer + n < b.data.length),
        rcontent_le { b with write_pointer := b.write_pointer + n }
          (by dsimp only; omega)]
      dsimp only
      rw [listSlice_take _ _ _ _ (by omega : n ≤ b.data.length - 1 -
        b.write_pointer), hr0, Nat.sub_zero, Nat.sub_zero, listSlice_add,
        Nat.zero_add]
    · have hn' : n ≤ (b.data.length - b.write_pointer) +
          (b.read_pointer - 1) := by
        rw [wtotal_mid b (by omega) hle hw] at hn; exact hn
      rw [wcontent_mid b (by omega) hle hw]
      rcases Nat.lt_trichotomy (b.write_pointer + n) b.data.length
        with hA | hA | hA
      · rw [Nat.mod_eq_of_lt hA,
          rcontent_le { b with write_pointer := b.write_pointer + n }
            (by dsimp only; omega)]
        dsimp only
        rw [listSlice_append_take_left _ _ _ _ _
          (by omega : n ≤ b.data.length - b.write_pointer) (by omega)]
        have h1 : b.write_pointer + n - b.read_pointer =
            (b.write_pointer - b.read_pointer) + n := by omega
        rw [h1, listSlice_add]
        have h2 : b.read_pointer + (b.write_pointer - b.read_pointer) =
            b.write_pointer := by omega
        rw [h2]
      · have hm : (b.write_pointer + n) % b.data.length = 0 := by
          rw [hA, Nat.mod_self]
        rw [hm, rcontent_gt { b with write_pointer := 0 }
          (by dsimp only; omega) (by dsimp only; omega)]
        dsimp only
        rw [listSlice_zero, List.append_nil,
          listSlice_append_take_left _ _ _ _ _
            (by omega : n ≤ b.data.length - b.write_pointer) (by omega)]
        have h1 : b.data.length - b.read_pointer =
            (b.write_pointer - b.read_pointer) + n := by omega
        rw [h1, listSlice_add]
        have h2 : b.read_pointer + (b.write_pointer - b.read_pointer) =
            b.write_pointer := by omega
        rw [h2]
      · have hm : (b.write_pointer + n) % b.data.length =
            n - (b.data.length - b.write_pointer) := by
          rw [Nat.mod_eq_sub_mod (by omega),
            Nat.mod_eq_of_lt (by omega)]
          omega
        rw [hm, rcontent_gt { b with write_pointer :=
            n - (b.data.length - b.write_pointer) }
          (by dsimp only; omega) (by dsimp only; omega)]
        dsimp only
        rw [listSlice_append_take_right _ _ _ _ _
          (by omega : b.data.length - b.write_pointer ≤ n) (by omega),
          listSlice_take _ _ _ _
            (by omega : n - (b.data.length - b.write_pointer) ≤
              b.read_pointer - 1)]
        have h1 : b.data.length - b.read_pointer =
            (b.write_pointer - b.read_pointer) +
              (b.data.length - b.write_pointer) := by omega
        rw [h1, listSlice_add]
        have h2 : b.read_pointer + (b.write_pointer - b.read_pointer) =
            b.write_pointer := by omega
        rw [h2, List.append_assoc]

/-! ## Ring buffer: `discard` -/

theorem discard_eq {α : Type} (b : circular_buffer α) (n : Nat) (hb : b.WF) :
    b.discard n =
      ({ b with read_pointer :=
          (b.read_pointer + min n b.rtotal) % b.data.length },
       min n b.rtotal) := by
  obtain ⟨hr, hw⟩ := hb
  unfold circular_buffer.discard
  dsimp only
  rcases Nat.lt_trichotomy b.read_pointer b.write_pointer with hlt | heq | hgt
  · rw [rtotal_lt b hlt, if_neg (by omega : ¬b.read_pointer = b.write_pointer),
      if_neg (by omega : ¬b.write_pointer < b.read_pointer)]
    dsimp only
    rw [if_pos hlt]
    have hk : min n (b.write_pointer - b.read_pointer) ≤
        b.write_pointer - b.read_pointer := Nat.min_le_right _ _
    rw [Nat.mod_eq_of_lt (by omega), Nat.zero_add]
  · rw [rtotal_empty b heq, if_pos heq, Nat.min_zero, Nat.add_zero,
      Nat.mod_eq_of_lt hr]
  · rw [rtotal_gt b hgt hr,
      if_neg (by omega : ¬b.read_pointer = b.write_pointer)]
    try dsimp only
    rw [if_pos hgt]
    rcases Nat.lt_or_ge n (b.data.length - b.read_pointer) with hc | hc
    · rw [Nat.min_eq_left (by omega : n ≤ b.data.length - b.read_pointer)]
      dsimp only
      rw [if_neg (by omega : ¬b.read_pointer + n = b.data.length)]
      try dsimp only
      rw [if_neg (by omega : ¬b.read_pointer + n < b.write_pointer),
        Nat.min_eq_left (by omega :
          n ≤ b.data.length - b.read_pointer + b.write_pointer),
        Nat.mod_eq_of_lt (by omega)]
    · rw [Nat.min_eq_right (by omega : b.data.length - b.read_pointer ≤ n)]
      dsimp only
      rw [if_pos (by omega : b.read_pointer +
        (b.data.length - b.read_pointer) = b.data.length)]
      try dsimp only
      rcases Nat.eq_zero_or_pos b.write_pointer with hw0 | hw0
      · rw [if_neg (by omega : ¬(0 : Nat) < b.write_pointer)]
        have h1 : min n (b.data.length - b.read_pointer + b.write_pointer) =
            b.data.length - b.read_pointer := by omega
        rw [h1]
        have h2 : (b.read_pointer + (b.data.length - b.read_pointer)) %
            b.data.length = 0 := by
          rw [(by omega : b.read_pointer +
            (b.data.length - b.read_pointer) = b.data.length), Nat.mod_self]
        rw [h2]
      · rw [if_pos hw0, Nat.sub_zero]
        rcases Nat.lt_or_ge n (b.data.length - b.read_pointer +
            b.write_pointer) with hd | hd
        · rw [Nat.min_eq_left (by omega :
            n - (b.data.length - b.read_pointer) ≤ b.write_pointer),
            Nat.min_eq_left (by omega : n ≤
              b.data.length - b.read_pointer + b.write_pointer)]
          have h2 : (b.read_pointer + n) % b.data.length =
              n - (b.data.length - b.read_pointer) := by
            rw [Nat.mod_eq_sub_mod (by omega), Nat.mod_eq_of_lt (by omega)]
            omega
          rw [h2, Nat.zero_add]
          have h3 : b.data.length - b.read_pointer +
              (n - (b.data.length - b.read_pointer)) = n := by omega
          rw [h3]
        · rw [Nat.min_eq_right (by omega :
            b.write_pointer ≤ n - (b.data.length - b.read_pointer)),
            Nat.min_eq_right (by omega :
              b.data.length - b.read_pointer + b.write_pointer ≤ n)]
          have h2 : (b.read_pointer + (b.data.length - b.read_pointer +
              b.write_pointer)) % b.data.length = b.write_pointer := by
            rw [Nat.mod_eq_sub_mod (by omega), Nat.mod_eq_of_lt (by omega)]
            omega
          rw [h2, Nat.zero_add]

theorem rcontent_advance_read {α : Type} (b : circular_buffer α) (k : Nat)
    (hb : b.WF) (hk : k ≤ b.rtotal) :
    circular_buffer.rcontent { b with read_pointer :=
        (b.read_pointer + k) % b.data.length } =
      b.rcontent.drop k := by
  obtain ⟨hr, hw⟩ := hb
  rcases Nat.lt_or_ge b.write_pointer b.read_pointer with hgt | hle
  · have hk' : k ≤ (b.data.length - b.read_pointer) + b.write_pointer := by
      rw [rtotal_gt b hgt hr] at hk; exact hk
    have hlen1 : (listSlice b.data b.read_pointer
        (b.data.length - b.read_pointer)).length =
        b.data.length - b.read_pointer := by
      rw [listSlice_length]; omega
    rw [rcontent_gt b hgt hr, List.drop_append_eq_append_drop, hlen1]
    rcases Nat.lt_trichotomy (b.read_pointer + k) b.data.length
      with hA | hA | hA
    · rw [Nat.mod_eq_of_lt hA,
        rcontent_gt { b with read_pointer := b.read_pointer + k }
          (by dsimp only; omega) (by dsimp only; omega)]
      dsimp only
      rw [(by omega : k - (b.data.length - b.read_pointer) = 0),
        List.drop_zero, listSlice_drop,
        (by omega : b.data.length - b.read_pointer - k =
          b.data.length - (b.read_pointer + k))]
    · have hm : (b.read_pointer + k) % b.data.length = 0 := by
        rw [hA, Nat.mod_self]
      rw [hm, rcontent_le { b with read_pointer := 0 }
        (by dsimp only; omega)]
      dsimp only
      rw [List.drop_eq_nil_of_le (by rw [hlen1]; omega), List.nil_append,
        (by omega : k - (b.data.length - b.read_pointer) = 0),
        List.drop_zero, Nat.sub_zero]
    · have hm : (b.read_pointer + k) % b.data.length =
          k - (b.data.length - b.read_pointer) := by
        rw [Nat.mod_eq_sub_mod (by omega), Nat.mod_eq_of_lt (by omega)]
        omega
      rw [hm, rcontent_le { b with read_pointer :=
          k - (b.data.length - b.read_pointer) } (by dsimp only; omega)]
      dsimp only
      rw [List.drop_eq_nil_of_le (by rw [hlen1]; omega), List.nil_append,
        listSlice_drop, Nat.zero_add]
  · have hk' : k ≤ b.write_pointer - b.read_pointer := by
      rw [rtotal_le b hle] at hk; exact hk
    rw [rcontent_le b hle, Nat.mod_eq_of_lt (by omega),
      rcontent_le { b with read_pointer := b.read_pointer + k }
        (by dsimp only; omega)]
    dsimp only
    rw [listSlice_drop,
      (by omega : b.write_pointer - b.read_pointer - k =
        b.write_pointer - (b.read_pointer + k))]

/-! ## Ring buffer: preservation of well-formedness -/

theorem commit_WF {α : Type} {b b' : circular_buffer α} {n k : Nat}
    (hb : b.WF) (h : b.commit n = some (b', k)) :
    b'.WF ∧ b'.data = b.data ∧ b'.read_pointer = b.read_pointer := by
  obtain ⟨hr, hw⟩ := hb
  unfold circular_buffer.commit at h
  dsimp only at h
  repeat' split at h
  all_goals
    first
      | exact Option.noConfusion h
      | (simp only [Option.some.injEq, Prod.mk.injEq] at h
         obtain ⟨h1, h2⟩ := h
         subst h1
         refine ⟨⟨?_, ?_⟩, rfl, rfl⟩ <;> (try dsimp only at *) <;> omega)

theorem discard_WF {α : Type} (b : circular_buffer α) (n : Nat)
    (hb : b.WF) :
    (b.discard n).1.WF ∧ (b.discard n).1.data = b.data ∧
      (b.discard n).1.write_pointer = b.write_pointer := by
  obtain ⟨hr, hw⟩ := hb
  unfold circular_buffer.discard
  dsimp only
  repeat' split
  all_goals refine ⟨⟨?_, ?_⟩, rfl, rfl⟩ <;> dsimp only <;> omega

theorem wranges_bounded {α : Type} (b : circular_buffer α) (hb : b.WF) :
    ∀ p ∈ b.writable_ranges, p.1 + p.2 ≤ b.data.length := by
  obtain ⟨hr, hw⟩ := hb
  intro p hp
  rcases Nat.lt_or_ge b.write_pointer b.read_pointer with h | h
  · rw [writable_ranges_wrapped b h] at hp
    split at hp <;> simp at hp
    obtain ⟨h1, h2⟩ := hp
    omega
  · by_cases hr0 : b.read_pointer = 0
    · rw [writable_ranges_r0 b hr0 hw] at hp
      split at hp <;> simp at hp
      obtain ⟨h1, h2⟩ := hp
      omega
    · rw [writable_ranges_mid b (by omega) h hw] at hp
      rcases List.mem_cons.mp hp with heq | hp2
      · rw [heq]; omega
      · split at hp2 <;> simp at hp2
        obtain ⟨h1, h2⟩ := hp2
        omega

theorem rranges_bounded {α : Type} (b : circular_buffer α) (hb : b.WF) :
    ∀ p ∈ b.readable_ranges, p.1 + p.2 ≤ b.data.length := by
  obtain ⟨hr, hw⟩ := hb
  intro p hp
  rcases Nat.lt_trichotomy b.read_pointer b.write_pointer with h | h | h
  · rw [readable_ranges_lt b h] at hp
    simp at hp
    obtain ⟨h1, h2⟩ := hp
    omega
  · rw [readable_ranges_empty b h] at hp
    simp at hp
  · rw [readable_ranges_gt b h hr] at hp
    rcases List.mem_cons.mp hp with heq | hp2
    · rw [heq]; omega
    · split at hp2 <;> simp at hp2
      obtain ⟨h1, h2⟩ := hp2
      omega

theorem writeRangesLoop_length {α : Type} (ranges : List (Nat × Nat))
    (data src : List α) (acc : Nat)
    (hb : ∀ p ∈ ranges, p.1 + p.2 ≤ data.length) :
    (writeRangesLoop ranges data src acc).1.length = data.length := by
  induction ranges generalizing data src acc with
  | nil => rfl
  | cons hd tl ih =>
    obtain ⟨s, l⟩ := hd
    have hsl : s + l ≤ data.length := hb (s, l) (List.mem_cons_self _ _)
    have hcopy : (copyAt data s (src.take (min src.length l))).length =
        data.length := by
      apply copyAt_length
      simp only [List.length_take]
      omega
    unfold writeRangesLoop
    dsimp only
    split
    · exact hcopy
    · rw [ih _ _ _ (fun p hp => by
        rw [hcopy]; exact hb p (List.mem_cons_of_mem _ hp))]
      exact hcopy

theorem write_WF {α : Type} {b b' : circular_buffer α} {src : List α}
    {k : Nat} (hb : b.WF) (h : b.write src = some (b', k)) :
    b'.WF ∧ b'.data.length = b.data.length := by
  obtain ⟨hr, hw⟩ := hb
  unfold circular_buffer.write at h
  dsimp only at h
  have hlen : (writeRangesLoop b.writable_ranges b.data src 0).1.length =
      b.data.length :=
    writeRangesLoop_length _ _ _ _ (wranges_bounded b ⟨hr, hw⟩)
  rcases hc : circular_buffer.commit
      { b with data := (writeRangesLoop b.writable_ranges b.data src 0).1 }
      (writeRangesLoop b.writable_ranges b.data src 0).2 with _ | q
  · rw [hc] at h
    exact Option.noConfusion h
  · obtain ⟨b₂, k₂⟩ := q
    rw [hc] at h
    simp only [Option.some.injEq, Prod.mk.injEq] at h
    obtain ⟨h1, h2⟩ := h
    subst h1
    have hwf := commit_WF (show circular_buffer.WF
      { b with data := (writeRangesLoop b.writable_ranges b.data src 0).1 }
      from ⟨by dsimp only; omega, by dsimp only; omega⟩) hc
    refine ⟨hwf.1, ?_⟩
    rw [hwf.2.1]
    exact hlen

theorem read_eq_discard {α : Type} (b : circular_buffer α) (dst : List α) :
    (b.read dst).1 =
      (b.discard (readRangesLoop b.readable_ranges b.data dst 0 0).2).1 :=
  rfl

theorem reachable_wf {α : Type} [Inhabited α] {size : Nat}
    {b : circular_buffer α} (h : circular_buffer.Reachable α size b) :
    b.WF ∧ b.data.length = size + 1 := by
  induction h with
  | new =>
    refine ⟨⟨?_, ?_⟩, ?_⟩ <;> simp [circular_buffer.new]
  | write hreach hw ih =>
    obtain ⟨hwf, hlen⟩ := ih
    have h2 := write_WF hwf hw
    exact ⟨h2.1, h2.2.trans hlen⟩
  | @read b0 dst hreach ih =>
    obtain ⟨hwf, hlen⟩ := ih
    rw [read_eq_discard]
    have h2 := discard_WF b0
      (readRangesLoop b0.readable_ranges b0.data dst 0 0).2 hwf
    refine ⟨h2.1, ?_⟩
    rw [h2.2.1]
    exact hlen
  | @discard b0 n hreach ih =>
    obtain ⟨hwf, hlen⟩ := ih
    have h2 := discard_WF b0 n hwf
    refine ⟨h2.1, ?_⟩
    rw [h2.2.1]
    exact hlen
  | commit hreach hc ih =>
    obtain ⟨hwf, hlen⟩ := ih
    have h2 := commit_WF hwf hc
    refine ⟨h2.1, ?_⟩
    rw [h2.2.1]
    exact hlen
  | clear hreach ih =>
    obtain ⟨hwf, hlen⟩ := ih
    exact ⟨⟨by dsimp [circular_buffer.clear]; omega,
      by dsimp [circular_buffer.clear]; omega⟩, hlen⟩

theorem wtotal_eq_length_wcontent {α : Type} (b : circular_buffer α)
    (hb : b.WF) : b.wcontent.length = b.wtotal := by
  obtain ⟨hr, hw⟩ := hb
  rcases Nat.lt_or_ge b.write_pointer b.read_pointer with h | h
  · rw [wcontent_wrapped b h, wtotal_wrapped b h, listSlice_length]
    omega
  · by_cases hr0 : b.read_pointer = 0
    · rw [wcontent_r0 b hr0 hw, wtotal_r0 b hr0 hw, listSlice_length]
      omega
    · rw [wcontent_mid b (by omega) h hw, wtotal_mid b (by omega) h hw,
        List.length_append, listSlice_length, listSlice_length]
      omega

theorem commit_rtotal {α : Type} (b : circular_buffer α) (n : Nat)
    (hb : b.WF) (hn : n ≤ b.wtotal) :
    circular_buffer.rtotal { b with write_pointer :=
        (b.write_pointer + n) % b.data.length } = b.rtotal + n := by
  have hr := hb.1
  have h2 := rtotal_eq_length_rcontent { b with write_pointer :=
      (b.write_pointer + n) % b.data.length }
    ⟨hb.1, Nat.mod_lt _ (by omega)⟩
  rw [← h2, commit_rcontent b n hb hn, List.length_append,
    rtotal_eq_length_rcontent b hb, List.length_take,
    wtotal_eq_length_wcontent b hb, Nat.min_eq_left hn]

theorem commit_wtotal {α : Type} (b : circular_buffer α) (n : Nat)
    (hb : b.WF) (hn : n ≤ b.wtotal) :
    circular_buffer.wtotal { b with write_pointer :=
        (b.write_pointer + n) % b.data.length } = b.wtotal - n := by
  have hr := hb.1
  have h3 := rtotal_add_wtotal { b with write_pointer :=
      (b.write_pointer + n) % b.data.length }
    ⟨hb.1, Nat.mod_lt _ (by omega)⟩
  have h4 := rtotal_add_wtotal b hb
  have h5 := commit_rtotal b n hb hn
  dsimp only at h3
  omega

/-! ## Claim theorems for the ring buffer -/

/-- C3: for every sequence of write/commit/read/discard/clear operations
starting from a fresh ring buffer, the number of unread units never exceeds
`capacity - 1`, where capacity is the size of the backing storage region
(`size + 1` physical slots for a `circular_buffer<Char, size>`; one slot is
always kept empty to disambiguate full from empty). -/
theorem C3_capacity_bound {α : Type} [Inhabited α] {size : Nat}
    {b : circular_buffer α} (h : circular_buffer.Reachable α size b) :
    b.data.length = size + 1 ∧ b.rtotal ≤ b.data.length - 1 := by
  obtain ⟨hwf, hlen⟩ := reachable_wf h
  refine ⟨hlen, ?_⟩
  have h2 := rtotal_add_wtotal b hwf
  omega

/-- Witness for C3 at a concrete reachable state: a fresh buffer of
capacity 5 slots (`size = 4`) after writing three units. -/
theorem C3_capacity_bound_witness :
    (circular_buffer.new Nat 4).write [7, 8, 9] =
      some (⟨[7, 8, 9, 0, 0], 0, 3⟩, 3) ∧
    (⟨[7, 8, 9, 0, 0], 0, 3⟩ : circular_buffer Nat).data.length = 4 + 1 ∧
    circular_buffer.rtotal (⟨[7, 8, 9, 0, 0], 0, 3⟩ : circular_buffer Nat) ≤
      (⟨[7, 8, 9, 0, 0], 0, 3⟩ : circular_buffer Nat).data.length - 1 := by
  refine ⟨by decide, ?_, ?_⟩
  · exact (C3_capacity_bound (circular_buffer.Reachable.write
      (circular_buffer.Reachable.new) (by decide :
        (circular_buffer.new Nat 4).write [7, 8, 9] =
          some (⟨[7, 8, 9, 0, 0], 0, 3⟩, 3)))).1
  · exact (C3_capacity_bound (circular_buffer.Reachable.write
      (circular_buffer.Reachable.new) (by decide :
        (circular_buffer.new Nat 4).write [7, 8, 9] =
          some (⟨[7, 8, 9, 0, 0], 0, 3⟩, 3)))).2

/-- C4: for a ring buffer of capacity 8, starting empty: writing the 6
units `A..F` (here `1..6`), reading 4 (returns `A..D`, leaving `E, F`),
writing the 5 units `G..K` (`7..11`) — which wraps the write cursor around
the physical end of storage — and reading all 7 remaining units returns
exactly `E, F, G, H, I, J, K` in order. -/
theorem C4_wraparound_scenario :
    (circular_buffer.new Nat 8).write [1, 2, 3, 4, 5, 6] =
      some (⟨[1, 2, 3, 4, 5, 6, 0, 0, 0], 0, 6⟩, 6) ∧
    (⟨[1, 2, 3, 4, 5, 6, 0, 0, 0], 0, 6⟩ : circular_buffer Nat).read
        [0, 0, 0, 0] =
      (⟨[1, 2, 3, 4, 5, 6, 0, 0, 0], 4, 6⟩, [1, 2, 3, 4], 4) ∧
    (⟨[1, 2, 3, 4, 5, 6, 0, 0, 0], 4, 6⟩ : circular_buffer Nat).write
        [7, 8, 9, 10, 11] =
      some (⟨[10, 11, 3, 4, 5, 6, 7, 8, 9], 4, 2⟩, 5) ∧
    -- the write cursor wrapped around the physical end of storage
    (circular_buffer.write_pointer
        (⟨[10, 11, 3, 4, 5, 6, 7, 8, 9], 4, 2⟩ : circular_buffer Nat) <
      circular_buffer.write_pointer
        (⟨[1, 2, 3, 4, 5, 6, 0, 0, 0], 4, 6⟩ : circular_buffer Nat)) ∧
    (⟨[10, 11, 3, 4, 5, 6, 7, 8, 9], 4, 2⟩ : circular_buffer Nat).read
        [0, 0, 0, 0, 0, 0, 0] =
      (⟨[10, 11, 3, 4, 5, 6, 7, 8, 9], 2, 2⟩, [5, 6, 7, 8, 9, 10, 11], 7) :=
  by decide

/-- C9: in every reachable ring-buffer state, if `n` does not exceed the
total size of the spans returned by `writable_ranges()`, then `commit(n)`
returns exactly `n`, advances the write cursor by `n` modulo the physical
storage size (wrapping at most once, since `n < storage size`), and exactly
`n` additional units (the first `n` units of the writable region) become
readable at the back while the previously readable data is unchanged. -/
theorem C9_commit_spec {α : Type} [Inhabited α] {size : Nat}
    {b : circular_buffer α} (hreach : circular_buffer.Reachable α size b)
    (n : Nat) (hn : n ≤ b.wtotal) :
    b.commit n =
      some ({ b with write_pointer :=
        (b.write_pointer + n) % b.data.length }, n) ∧
    circular_buffer.rcontent { b with write_pointer :=
        (b.write_pointer + n) % b.data.length } =
      b.rcontent ++ b.wcontent.take n ∧
    circular_buffer.rtotal { b with write_pointer :=
        (b.write_pointer + n) % b.data.length } = b.rtotal + n ∧
    n < b.data.length := by
  obtain ⟨hwf, hlen⟩ := reachable_wf hreach
  have h2 := rtotal_add_wtotal b hwf
  exact ⟨commit_eq b n hwf hn, commit_rcontent b n hwf hn,
    commit_rtotal b n hwf hn, by omega⟩

/-- Witness for C9: a fresh buffer of 5 physical slots, committing 3 units.
-/
theorem C9_commit_spec_witness :
    3 ≤ (circular_buffer.new Nat 4).wtotal ∧
    ((circular_buffer.new Nat 4).commit 3 =
      some ({ circular_buffer.new Nat 4 with write_pointer :=
        ((circular_buffer.new Nat 4).write_pointer + 3) %
          (circular_buffer.new Nat 4).data.length }, 3) ∧
    circular_buffer.rcontent { circular_buffer.new Nat 4 with
        write_pointer := ((circular_buffer.new Nat 4).write_pointer + 3) %
          (circular_buffer.new Nat 4).data.length } =
      (circular_buffer.new Nat 4).rcontent ++
        (circular_buffer.new Nat 4).wcontent.take 3 ∧
    circular_buffer.rtotal { circular_buffer.new Nat 4 with
        write_pointer := ((circular_buffer.new Nat 4).write_pointer + 3) %
          (circular_buffer.new Nat 4).data.length } =
      (circular_buffer.new Nat 4).rtotal + 3 ∧
    3 < (circular_buffer.new Nat 4).data.length) :=
  ⟨by decide, C9_commit_spec (circular_buffer.Reachable.new) 3 (by decide)⟩

/-! ## Ring buffer: overflowing writes fill the buffer exactly -/

theorem wtotal_of_ranges_nil {α : Type} (b : circular_buffer α)
    (hranges : b.writable_ranges = []) : b.wtotal = 0 := by
  rw [circular_buffer.wtotal, hranges]
  rfl

theorem wtotal_of_ranges_single {α : Type} (b : circular_buffer α)
    {s T : Nat} (hranges : b.writable_ranges = [(s, T)]) : b.wtotal = T := by
  rw [circular_buffer.wtotal, hranges]
  simp

theorem wtotal_of_ranges_pair {α : Type} (b : circular_buffer α)
    {s1 l1 s2 l2 : Nat}
    (hranges : b.writable_ranges = [(s1, l1), (s2, l2)]) :
    b.wtotal = l1 + l2 := by
  rw [circular_buffer.wtotal, hranges]
  simp

/-- Assembling `write` when the writable-range list is empty: nothing is
copied, `commit 0` leaves the state unchanged. -/
theorem write_assemble_empty {α : Type} (b : circular_buffer α)
    (src : List α) (hb : b.WF) (hranges : b.writable_ranges = []) :
    ∃ b', b.write src = some (b', b.wtotal) ∧ b'.wtotal = 0 ∧
      b'.rtotal = b.rtotal + b.wtotal ∧
      b'.rcontent = b.rcontent ++ src.take b.wtotal := by
  obtain ⟨hr, hw⟩ := hb
  have hT0 : b.wtotal = 0 := wtotal_of_ranges_nil b hranges
  unfold circular_buffer.write
  dsimp only
  rw [hranges]
  simp only [writeRangesLoop]
  have hc := commit_eq { b with data := b.data } 0 ⟨hr, hw⟩ (by omega)
  rw [hc]
  refine ⟨_, by rw [hT0], ?_, ?_, ?_⟩
  · have h5 := commit_wtotal { b with data := b.data } 0 ⟨hr, hw⟩ (by omega)
    have h6 : circular_buffer.wtotal { b with data := b.data } = b.wtotal :=
      rfl
    rw [h5, h6, hT0]
  · have h5 := commit_rtotal { b with data := b.data } 0 ⟨hr, hw⟩ (by omega)
    have h6 : circular_buffer.rtotal { b with data := b.data } = b.rtotal :=
      rfl
    rw [h5, h6, hT0, Nat.add_zero]
  · have h5 := commit_rcontent { b with data := b.data } 0 ⟨hr, hw⟩
      (by omega)
    have h6 : circular_buffer.rcontent { b with data := b.data } =
        b.rcontent := rfl
    rw [h5, h6, hT0]
    simp

/-- Assembling `write` over a single writable span `(s, T)` when the source
overflows it: the span is filled completely and committed. -/
theorem write_assemble_single {α : Type} (b : circular_buffer α)
    (src : List α) (s T : Nat) (hb : b.WF)
    (hranges : b.writable_ranges = [(s, T)])
    (hbound : s + T ≤ b.data.length) (hsrc : T < src.length)
    (hrc : circular_buffer.rcontent
        { b with data := copyAt b.data s (src.take T) } = b.rcontent)
    (hwc : circular_buffer.wcontent
        { b with data := copyAt b.data s (src.take T) } = src.take T) :
    ∃ b', b.write src = some (b', b.wtotal) ∧ b'.wtotal = 0 ∧
      b'.rtotal = b.rtotal + b.wtotal ∧
      b'.rcontent = b.rcontent ++ src.take b.wtotal := by
  obtain ⟨hr, hw⟩ := hb
  have hT : b.wtotal = T := wtotal_of_ranges_single b hranges
  have hTk : (src.take T).length = T := by rw [List.length_take]; omega
  have hlen' : (copyAt b.data s (src.take T)).length = b.data.length := by
    apply copyAt_length
    rw [hTk]; omega
  have hwf' : circular_buffer.WF
      { b with data := copyAt b.data s (src.take T) } := by
    constructor <;> dsimp only <;> omega
  have hrt' : circular_buffer.rtotal
      { b with data := copyAt b.data s (src.take T) } = b.rtotal := by
    rw [← rtotal_eq_length_rcontent _ hwf', hrc,
      rtotal_eq_length_rcontent b ⟨hr, hw⟩]
  have hwt' : circular_buffer.wtotal
      { b with data := copyAt b.data s (src.take T) } = T := by
    have h3 := rtotal_add_wtotal _ hwf'
    have h4 := rtotal_add_wtotal b ⟨hr, hw⟩
    dsimp only at h3
    rw [hlen', hrt'] at h3
    omega
  unfold circular_buffer.write
  dsimp only
  rw [hranges]
  have hloop : writeRangesLoop [(s, T)] b.data src 0 =
      (copyAt b.data s (src.take T), T) := by
    simp only [writeRangesLoop]
    rw [Nat.min_eq_right (by omega : T ≤ src.length),
      if_neg (by rw [List.length_drop]; omega)]
    rw [Nat.zero_add]
  rw [hloop]
  dsimp only
  have hc := commit_eq { b with data := copyAt b.data s (src.take T) } T
    hwf' (by rw [hwt'])
  rw [hc]
  refine ⟨_, by rw [hT], ?_, ?_, ?_⟩
  · have h5 := commit_wtotal { b with data := copyAt b.data s (src.take T) }
      T hwf' (by rw [hwt'])
    rw [h5, hwt', Nat.sub_self]
  · have h5 := commit_rtotal { b with data := copyAt b.data s (src.take T) }
      T hwf' (by rw [hwt'])
    rw [h5, hrt', hT]
  · have h5 := commit_rcontent
      { b with data := copyAt b.data s (src.take T) } T hwf' (by rw [hwt'])
    rw [h5, hrc, hwc, List.take_take, Nat.min_self, hT]

/-- Assembling `write` over two writable spans when the source overflows
them: both spans are filled completely and committed. -/
theorem write_assemble_pair {α : Type} (b : circular_buffer α)
    (src : List α) (s1 l1 s2 l2 : Nat) (hb : b.WF)
    (hranges : b.writable_ranges = [(s1, l1), (s2, l2)])
    (hbound1 : s1 + l1 ≤ b.data.length) (hbound2 : s2 + l2 ≤ b.data.length)
    (hsrc : l1 + l2 < src.length)
    (hrc : circular_buffer.rcontent { b with data :=
        (copyAt (copyAt b.data s1 (src.take l1)) s2
          ((src.drop l1).take l2)) } = b.rcontent)
    (hwc : circular_buffer.wcontent { b with data :=
        (copyAt (copyAt b.data s1 (src.take l1)) s2
          ((src.drop l1).take l2)) } = src.take (l1 + l2)) :
    ∃ b', b.write src = some (b', b.wtotal) ∧ b'.wtotal = 0 ∧
      b'.rtotal = b.rtotal + b.wtotal ∧
      b'.rcontent = b.rcontent ++ src.take b.wtotal := by
  obtain ⟨hr, hw⟩ := hb
  have hT : b.wtotal = l1 + l2 := wtotal_of_ranges_pair b hranges
  have hTk1 : (src.take l1).length = l1 := by rw [List.length_take]; omega
  have hTk2 : ((src.drop l1).take l2).length = l2 := by
    rw [List.length_take, List.length_drop]; omega
  have hlen1 : (copyAt b.data s1 (src.take l1)).length = b.data.length := by
    apply copyAt_length
    rw [hTk1]; omega
  have hlen2 : (copyAt (copyAt b.data s1 (src.take l1)) s2
      ((src.drop l1).take l2)).length = b.data.length := by
    rw [copyAt_length, hlen1]
    rw [hTk2, hlen1]; omega
  have hwf' : circular_buffer.WF { b with data :=
      (copyAt (copyAt b.data s1 (src.take l1)) s2
        ((src.drop l1).take l2)) } := by
    constructor <;> dsimp only <;> omega
  have hrt' : circular_buffer.rtotal { b with data :=
      (copyAt (copyAt b.data s1 (src.take l1)) s2
        ((src.drop l1).take l2)) } = b.rtotal := by
    rw [← rtotal_eq_length_rcontent _ hwf', hrc,
      rtotal_eq_length_rcontent b ⟨hr, hw⟩]
  have hwt' : circular_buffer.wtotal { b with data :=
      (copyAt (copyAt b.data s1 (src.take l1)) s2
        ((src.drop l1).take l2)) } = l1 + l2 := by
    have h3 := rtotal_add_wtotal _ hwf'
    have h4 := rtotal_add_wtotal b ⟨hr, hw⟩
    dsimp only at h3
    rw [hlen2, hrt'] at h3
    omega
  unfold circular_buffer.write
  dsimp only
  rw [hranges]
  have hloop : writeRangesLoop [(s1, l1), (s2, l2)] b.data src 0 =
      (copyAt (copyAt b.data s1 (src.take l1)) s2
        ((src.drop l1).take l2), l1 + l2) := by
    simp only [writeRangesLoop]
    rw [Nat.min_eq_right (by omega : l1 ≤ src.length),
      if_neg (by rw [List.length_drop]; omega),
      Nat.min_eq_right (by rw [List.length_drop]; omega :
        l2 ≤ (src.drop l1).length),
      if_neg (by rw [List.length_drop, List.length_drop]; omega)]
    rw [Nat.zero_add]
  rw [hloop]
  dsimp only
  have hc := commit_eq { b with data :=
      (copyAt (copyAt b.data s1 (src.take l1)) s2
        ((src.drop l1).take l2)) } (l1 + l2) hwf' (by rw [hwt'])
  rw [hc]
  refine ⟨_, by rw [hT], ?_, ?_, ?_⟩
  · have h5 := commit_wtotal { b with data :=
        (copyAt (copyAt b.data s1 (src.take l1)) s2
          ((src.drop l1).take l2)) } (l1 + l2) hwf' (by rw [hwt'])
    rw [h5, hwt', Nat.sub_self]
  · have h5 := commit_rtotal { b with data :=
        (copyAt (copyAt b.data s1 (src.take l1)) s2
          ((src.drop l1).take l2)) } (l1 + l2) hwf' (by rw [hwt'])
    rw [h5, hrt', hT]
  · have h5 := commit_rcontent { b with data :=
        (copyAt (copyAt b.data s1 (src.take l1)) s2
          ((src.drop l1).take l2)) } (l1 + l2) hwf' (by rw [hwt'])
    rw [h5, hrc, hwc, List.take_take, Nat.min_self, hT]

theorem write_overflow {α : Type} (b : circular_buffer α) (src : List α)
    (hb : b.WF) (h : b.wtotal < src.length) :
    ∃ b', b.write src = some (b', b.wtotal) ∧ b'.wtotal = 0 ∧
      b'.rtotal = b.rtotal + b.wtotal ∧
      b'.rcontent = b.rcontent ++ src.take b.wtotal := by
  obtain ⟨hr, hw⟩ := hb
  rcases Nat.lt_or_ge b.write_pointer b.read_pointer with hgt | hle
  · -- wrapped: at most one span [w, r-1)
    have hT := wtotal_wrapped b hgt
    by_cases h0 : b.read_pointer - 1 - b.write_pointer = 0
    · exact write_assemble_empty b src ⟨hr, hw⟩
        (by rw [writable_ranges_wrapped b hgt, if_pos h0])
    · have hsrc : b.read_pointer - 1 - b.write_pointer < src.length := by
        omega
      have hTk : (src.take (b.read_pointer - 1 -
          b.write_pointer)).length =
          b.read_pointer - 1 - b.write_pointer := by
        rw [List.length_take]; omega
      have hlen' : (copyAt b.data b.write_pointer
          (src.take (b.read_pointer - 1 - b.write_pointer))).length =
          b.data.length := by
        apply copyAt_length
        rw [hTk]; omega
      refine write_assemble_single b src b.write_pointer
        (b.read_pointer - 1 - b.write_pointer) ⟨hr, hw⟩
        (by rw [writable_ranges_wrapped b hgt, if_neg h0]) (by omega) hsrc
        ?_ ?_
      · rw [rcontent_gt { b with data := (copyAt b.data b.write_pointer
            (src.take (b.read_pointer - 1 - b.write_pointer))) } hgt
            (by dsimp only; rw [hlen']; exact hr)]
        dsimp only
        rw [hlen',
          listSlice_copyAt_right b.data _ b.write_pointer b.read_pointer _
            (by rw [hTk]; omega) (by rw [hTk]; omega),
          listSlice_copyAt_left b.data _ b.write_pointer 0 b.write_pointer
            (by omega) (by omega),
          rcontent_gt b hgt hr]
      · rw [wcontent_wrapped { b with data := (copyAt b.data b.write_pointer
            (src.take (b.read_pointer - 1 - b.write_pointer))) } hgt]
        dsimp only
        have hself := listSlice_copyAt_self b.data
          (src.take (b.read_pointer - 1 - b.write_pointer))
          b.write_pointer (by rw [hTk]; omega)
        rw [hTk] at hself
        exact hself
  · have hle' : b.read_pointer ≤ b.write_pointer := hle
    by_cases hr0 : b.read_pointer = 0
    · -- read pointer at the start: at most one span [w, N - 1)
      have hT := wtotal_r0 b hr0 hw
      by_cases h0 : b.data.length - 1 - b.write_pointer = 0
      · exact write_assemble_empty b src ⟨hr, hw⟩
          (by rw [writable_ranges_r0 b hr0 hw, if_pos h0])
      · have hsrc : b.data.length - 1 - b.write_pointer < src.length := by
          omega
        have hTk : (src.take (b.data.length - 1 -
            b.write_pointer)).length =
            b.data.length - 1 - b.write_pointer := by
          rw [List.length_take]; omega
        have hlen' : (copyAt b.data b.write_pointer
            (src.take (b.data.length - 1 - b.write_pointer))).length =
            b.data.length := by
          apply copyAt_length
          rw [hTk]; omega
        refine write_assemble_single b src b.write_pointer
          (b.data.length - 1 - b.write_pointer) ⟨hr, hw⟩
          (by rw [writable_ranges_r0 b hr0 hw, if_neg h0]) (by omega) hsrc
          ?_ ?_
        · rw [rcontent_le { b with data := (copyAt b.data b.write_pointer
              (src.take (b.data.length - 1 - b.write_pointer))) } hle']
          dsimp only
          rw [listSlice_copyAt_left b.data _ b.write_pointer b.read_pointer
              (b.write_pointer - b.read_pointer) (by omega) (by omega),
            rcontent_le b hle']
        · rw [wcontent_r0 { b with data := (copyAt b.data b.write_pointer
              (src.take (b.data.length - 1 - b.write_pointer))) } hr0
              (by dsimp only; rw [hlen']; exact hw)]
          dsimp only
          rw [hlen']
          have hself := listSlice_copyAt_self b.data
            (src.take (b.data.length - 1 - b.write_pointer))
            b.write_pointer (by rw [hTk]; omega)
          rw [hTk] at hself
          exact hself
    · -- read pointer inside: spans [w, N) and, when r > 1, [0, r-1)
      have hT := wtotal_mid b (by omega) hle' hw
      by_cases h1 : b.read_pointer - 1 = 0
      · have hsrc : b.data.length - b.write_pointer < src.length := by
          omega
        have hTk : (src.take (b.data.length - b.write_pointer)).length =
            b.data.length - b.write_pointer := by
          rw [List.length_take]; omega
        have hlen' : (copyAt b.data b.write_pointer
            (src.take (b.data.length - b.write_pointer))).length =
            b.data.length := by
          apply copyAt_length
          rw [hTk]; omega
        refine write_assemble_single b src b.write_pointer
          (b.data.length - b.write_pointer) ⟨hr, hw⟩
          (by rw [writable_ranges_mid b (by omega) hle' hw, if_pos h1])
          (by omega) hsrc ?_ ?_
        · rw [rcontent_le { b with data := (copyAt b.data b.write_pointer
              (src.take (b.data.length - b.write_pointer))) } hle']
          dsimp only
          rw [listSlice_copyAt_left b.data _ b.write_pointer b.read_pointer
              (b.write_pointer - b.read_pointer) (by omega) (by omega),
            rcontent_le b hle']
        · rw [wcontent_mid { b with data := (copyAt b.data b.write_pointer
              (src.take (b.data.length - b.write_pointer))) } (by dsimp only; omega)
              hle' (by dsimp only; rw [hlen']; exact hw)]
          dsimp only
          rw [h1, listSlice_zero, List.append_nil, hlen']
          have hself := listSlice_copyAt_self b.data
            (src.take (b.data.length - b.write_pointer))
            b.write_pointer (by rw [hTk]; omega)
          rw [hTk] at hself
          exact hself
      · have hsrc : (b.data.length - b.write_pointer) +
            (b.read_pointer - 1) < src.length := by omega
        have hTk1 : (src.take (b.data.length - b.write_pointer)).length =
            b.data.length - b.write_pointer := by
          rw [List.length_take]; omega
        have hTk2 : ((src.drop (b.data.length - b.write_pointer)).take
            (b.read_pointer - 1)).length = b.read_pointer - 1 := by
          rw [List.length_take, List.length_drop]; omega
        have hlen1 : (copyAt b.data b.write_pointer
            (src.take (b.data.length - b.write_pointer))).length =
            b.data.length := by
          apply copyAt_length
          rw [hTk1]; omega
        have hlen2 : (copyAt (copyAt b.data b.write_pointer
            (src.take (b.data.length - b.write_pointer))) 0
            ((src.drop (b.data.length - b.write_pointer)).take
              (b.read_pointer - 1))).length = b.data.length := by
          rw [copyAt_length, hlen1]
          rw [hTk2, hlen1]; omega
        refine write_assemble_pair b src b.write_pointer
          (b.data.length - b.write_pointer) 0 (b.read_pointer - 1)
          ⟨hr, hw⟩
          (by rw [writable_ranges_mid b (by omega) hle' hw, if_neg h1])
          (by omega) (by omega) hsrc ?_ ?_
        · rw [rcontent_le { b with data :=
              (copyAt (copyAt b.data b.write_pointer
                (src.take (b.data.length - b.write_pointer))) 0
                ((src.drop (b.data.length - b.write_pointer)).take
                  (b.read_pointer - 1))) } hle']
          dsimp only
          rw [listSlice_copyAt_right _ _ 0 b.read_pointer
              (b.write_pointer - b.read_pointer) (by rw [hTk2]; omega)
              (by rw [hTk2, hlen1]; omega),
            listSlice_copyAt_left b.data _ b.write_pointer b.read_pointer
              (b.write_pointer - b.read_pointer) (by omega) (by omega),
            rcontent_le b hle']
        · rw [wcontent_mid { b with data :=
              (copyAt (copyAt b.data b.write_pointer
                (src.take (b.data.length - b.write_pointer))) 0
                ((src.drop (b.data.length - b.write_pointer)).take
                  (b.read_pointer - 1))) } (by dsimp only; omega) hle'
              (by dsimp only; rw [hlen2]; exact hw)]
          dsimp only
          rw [hlen2,
            listSlice_copyAt_right _ _ 0 b.write_pointer
              (b.data.length - b.write_pointer) (by rw [hTk2]; omega)
              (by rw [hTk2, hlen1]; omega)]
          have hself1 := listSlice_copyAt_self b.data
            (src.take (b.data.length - b.write_pointer))
            b.write_pointer (by rw [hTk1]; omega)
          rw [hTk1] at hself1
          have hself2 := listSlice_copyAt_self
            (copyAt b.data b.write_pointer
              (src.take (b.data.length - b.write_pointer)))
            ((src.drop (b.data.length - b.write_pointer)).take
              (b.read_pointer - 1)) 0 (by rw [hTk2, hlen1]; omega)
          rw [hTk2] at hself2
          rw [hself1, hself2, List.take_add]

/-- C7: whenever `write(source)` is called on a reachable ring-buffer state
with `len(source)` strictly greater than the current free space, the call
returns exactly the free space at the time of the call, the buffer becomes
full afterward (no writable space left), and the stored data grows by
exactly the first free-space-many whole units of `source` appended at the
back. -/
theorem C7_short_write {α : Type} [Inhabited α] {size : Nat}
    {b : circular_buffer α} (hreach : circular_buffer.Reachable α size b)
    (src : List α) (h : b.wtotal < src.length) :
    ∃ b', b.write src = some (b', b.wtotal) ∧ b'.wtotal = 0 ∧
      b'.rtotal = b.rtotal + b.wtotal ∧
      b'.rcontent = b.rcontent ++ src.take b.wtotal :=
  write_overflow b src (reachable_wf hreach).1 h

/-- Witness for C7: after writing three units into a fresh five-slot
buffer, one unit of free space remains; writing a two-unit source accepts
exactly one unit and fills the buffer. -/
theorem C7_short_write_witness :
    circular_buffer.wtotal
        (⟨[7, 8, 9, 0, 0], 0, 3⟩ : circular_buffer Nat) < 2 ∧
    ∃ b', (⟨[7, 8, 9, 0, 0], 0, 3⟩ : circular_buffer Nat).write [11, 12] =
        some (b', circular_buffer.wtotal
          (⟨[7, 8, 9, 0, 0], 0, 3⟩ : circular_buffer Nat)) ∧
      b'.wtotal = 0 ∧
      b'.rtotal = circular_buffer.rtotal
          (⟨[7, 8, 9, 0, 0], 0, 3⟩ : circular_buffer Nat) +
        circular_buffer.wtotal
          (⟨[7, 8, 9, 0, 0], 0, 3⟩ : circular_buffer Nat) ∧
      b'.rcontent = circular_buffer.rcontent
          (⟨[7, 8, 9, 0, 0], 0, 3⟩ : circular_buffer Nat) ++
        List.take (circular_buffer.wtotal
          (⟨[7, 8, 9, 0, 0], 0, 3⟩ : circular_buffer Nat)) [11, 12] :=
  ⟨by decide, C7_short_write
    (circular_buffer.Reachable.write (circular_buffer.Reachable.new)
      (by decide : (circular_buffer.new Nat 4).write [7, 8, 9] =
        some (⟨[7, 8, 9, 0, 0], 0, 3⟩, 3))) [11, 12] (by decide)⟩

/-! ## Dynamic buffer: basic facts about extents and content -/

theorem read_window_mkFresh {α : Type} [Inhabited α] (cap : Nat) :
    (fixed_buffer.mkFresh α cap).read_window = [] := rfl

theorem read_window_eq_nil {α : Type} (e : fixed_buffer α)
    (h : e.read_window_size = 0) : e.read_window = [] := by
  unfold fixed_buffer.read_window
  unfold fixed_buffer.read_window_size at h
  rw [h, listSlice_zero]

theorem read_window_length {α : Type} (e : fixed_buffer α)
    (hr : e.r ≤ e.w) (hw : e.w ≤ e.buf.length) :
    e.read_window.length = e.read_window_size := by
  unfold fixed_buffer.read_window fixed_buffer.read_window_size
  rw [listSlice_length]
  omega

theorem contentOf_nil {α : Type} :
    dynamic_buffer.contentOf ([] : List (fixed_buffer α)) = [] := rfl

theorem contentOf_cons {α : Type} (e : fixed_buffer α)
    (l : List (fixed_buffer α)) :
    dynamic_buffer.contentOf (e :: l) =
      e.read_window ++ dynamic_buffer.contentOf l := by
  simp [dynamic_buffer.contentOf]

theorem contentOf_append {α : Type} (l1 l2 : List (fixed_buffer α)) :
    dynamic_buffer.contentOf (l1 ++ l2) =
      dynamic_buffer.contentOf l1 ++ dynamic_buffer.contentOf l2 := by
  simp [dynamic_buffer.contentOf]

theorem contentOf_eq_nil_of_all {α : Type} (l : List (fixed_buffer α))
    (h : ∀ e ∈ l, e.read_window_size = 0) :
    dynamic_buffer.contentOf l = [] := by
  induction l with
  | nil => rfl
  | cons e tl ih =>
    rw [contentOf_cons, read_window_eq_nil e (h e (List.mem_cons_self _ _)),
      List.nil_append]
    exact ih (fun x hx => h x (List.mem_cons_of_mem _ hx))

theorem rtotalOf_nil {α : Type} :
    dynamic_buffer.rtotalOf ([] : List (fixed_buffer α)) = 0 := rfl

theorem rtotalOf_cons {α : Type} (e : fixed_buffer α)
    (l : List (fixed_buffer α)) :
    dynamic_buffer.rtotalOf (e :: l) =
      e.read_window_size + dynamic_buffer.rtotalOf l := by
  simp [dynamic_buffer.rtotalOf]

theorem rtotalOf_append {α : Type} (l1 l2 : List (fixed_buffer α)) :
    dynamic_buffer.rtotalOf (l1 ++ l2) =
      dynamic_buffer.rtotalOf l1 + dynamic_buffer.rtotalOf l2 := by
  simp [dynamic_buffer.rtotalOf]

theorem contentOf_length {α : Type} (esize : Nat)
    (l : List (fixed_buffer α))
    (h : ∀ e ∈ l, fixed_buffer.WF esize e) :
    (dynamic_buffer.contentOf l).length = dynamic_buffer.rtotalOf l := by
  induction l with
  | nil => rfl
  | cons e tl ih =>
    obtain ⟨h1, h2, h3⟩ := h e (List.mem_cons_self _ _)
    rw [contentOf_cons, rtotalOf_cons, List.length_append,
      read_window_length e h2 (by omega),
      ih (fun x hx => h x (List.mem_cons_of_mem _ hx))]

theorem contentOf_set {α : Type} (l : List (fixed_buffer α)) (i : Nat)
    (hi : i < l.length) (e' : fixed_buffer α) :
    dynamic_buffer.contentOf (l.set i e') =
      dynamic_buffer.contentOf (l.take i) ++
        (e'.read_window ++ dynamic_buffer.contentOf (l.drop (i + 1))) := by
  rw [List.set_eq_take_append_cons_drop, if_pos hi, contentOf_append,
    contentOf_cons]

theorem contentOf_decomp {α : Type} (l : List (fixed_buffer α)) (i : Nat)
    (hi : i < l.length) :
    dynamic_buffer.contentOf l =
      dynamic_buffer.contentOf (l.take i) ++
        ((l[i]).read_window ++ dynamic_buffer.contentOf (l.drop (i + 1))) := by
  conv_lhs => rw [← List.take_append_drop i l]
  rw [contentOf_append, List.drop_eq_getElem_cons hi, contentOf_cons]

/-- The readable window of an extent after an extent-level `write`: the old
window extended by the units accepted (the accepted prefix of the source).
-/
theorem read_window_write {α : Type} (e : fixed_buffer α) (src : List α)
    (hr : e.r ≤ e.w) (hw : e.w ≤ e.buf.length) :
    (e.write src).1.read_window =
      e.read_window ++ src.take (e.write src).2 := by
  unfold fixed_buffer.write fixed_buffer.read_window
  dsimp only
  have hcan : min src.length (e.buf.length - e.w) ≤ src.length :=
    Nat.min_le_left _ _
  have hcan2 : min src.length (e.buf.length - e.w) ≤ e.buf.length - e.w :=
    Nat.min_le_right _ _
  have hTk : (src.take (min src.length (e.buf.length - e.w))).length =
      min src.length (e.buf.length - e.w) := by
    rw [List.length_take]; omega
  have h1 : e.w + min src.length (e.buf.length - e.w) - e.r =
      (e.w - e.r) + min src.length (e.buf.length - e.w) := by omega
  rw [h1, listSlice_add,
    listSlice_copyAt_left e.buf _ e.w e.r (e.w - e.r) (by omega)
      (by omega),
    (by omega : e.r + (e.w - e.r) = e.w)]
  congr 1
  have hself := listSlice_copyAt_self e.buf
    (src.take (min src.length (e.buf.length - e.w))) e.w
    (by rw [hTk]; omega)
  rw [hTk] at hself
  exact hself

/-- The write window of an extent after an extent-level `write` of a source
at least as long as the window: the extent is full. -/
theorem write_window_write {α : Type} (e : fixed_buffer α) (src : List α)
    (hw : e.w ≤ e.buf.length) :
    (e.write src).1.write_window_size =
      e.write_window_size - (e.write src).2 := by
  unfold fixed_buffer.write fixed_buffer.write_window_size
  dsimp only
  rw [copyAt_length]
  · omega
  · rw [List.length_take]
    have := Nat.min_le_right src.length (e.buf.length - e.w)
    omega

/-! ## Dynamic buffer: `ensure_minfree` -/

theorem fixed_buffer_WF_mkFresh {α : Type} [Inhabited α] (esize : Nat) :
    fixed_buffer.WF esize (fixed_buffer.mkFresh α esize) :=
  ⟨List.length_replicate _ _, Nat.le_refl 0, Nat.zero_le _⟩

theorem write_window_size_mkFresh {α : Type} [Inhabited α] (esize : Nat) :
    (fixed_buffer.mkFresh α esize).write_window_size = esize := by
  unfold fixed_buffer.write_window_size fixed_buffer.mkFresh
  simp

theorem ensure_minfree_extent_size {α : Type} [Inhabited α]
    (b : dynamic_buffer α) :
    b.ensure_minfree.extent_size = b.extent_size := by
  unfold dynamic_buffer.ensure_minfree
  dsimp only
  split <;> rfl

theorem ensure_minfree_content {α : Type} [Inhabited α]
    (b : dynamic_buffer α) : b.ensure_minfree.content = b.content := by
  unfold dynamic_buffer.ensure_minfree
  dsimp only
  split
  · show dynamic_buffer.contentOf (b.extents ++ [_]) = _
    rw [contentOf_append, contentOf_cons, contentOf_nil,
      read_window_mkFresh, List.nil_append, List.append_nil]
    rfl
  · rfl

theorem ensure_minfree_rtotal {α : Type} [Inhabited α]
    (b : dynamic_buffer α) : b.ensure_minfree.rtotal = b.rtotal := by
  unfold dynamic_buffer.ensure_minfree
  dsimp only
  split
  · show dynamic_buffer.rtotalOf (b.extents ++ [_]) = _
    rw [rtotalOf_append, rtotalOf_cons, rtotalOf_nil]
    rfl
  · rfl

theorem ensure_minfree_extents_ne_nil {α : Type} [Inhabited α]
    (b : dynamic_buffer α) (hpos : 0 < b.extent_size) :
    b.ensure_minfree.extents ≠ [] ∧
    ∃ e, b.ensure_minfree.extents.getLast? = some e ∧
      b.minfree ≤ e.write_window_size := by
  unfold dynamic_buffer.ensure_minfree
  dsimp only
  split
  · refine ⟨by simp, fixed_buffer.mkFresh α b.extent_size, ?_, ?_⟩
    · show (b.extents ++ [_]).getLast? = _
      rw [List.getLast?_concat]
    · rw [write_window_size_mkFresh]
      exact Nat.div_le_self _ _
  · rename_i hneed
    rcases hl : b.extents.getLast? with _ | e
    · rw [hl] at hneed
      simp at hneed
    · rw [hl] at hneed
      simp only [decide_eq_true_eq] at hneed
      refine ⟨?_, e, rfl, by omega⟩
      intro hnil
      rw [hnil] at hl
      simp at hl

theorem ensure_minfree_INV {α : Type} [Inhabited α]
    {b : dynamic_buffer α} (h : b.INV) : b.ensure_minfree.INV := by
  obtain ⟨hpos, hwp, hWFe, hfull, hempty, hr0, hfront⟩ := h
  unfold dynamic_buffer.ensure_minfree
  dsimp only
  split
  · -- a fresh extent is appended
    set f := fixed_buffer.mkFresh α b.extent_size with hf
    have hlen : (b.extents ++ [f]).length = b.extents.length + 1 := by
      simp
    have hgetf : ∀ h2 : b.extents.length < (b.extents ++ [f]).length,
        (b.extents ++ [f])[b.extents.length] = f := fun h2 =>
      List.getElem_concat_length _ _ _ rfl h2
    by_cases hadv : fixed_buffer.write_window_size
        ((b.extents ++ [f]).getD b.write_pointer f) = 0
    · -- the previous write extent is exhausted: the index advances
      have hwplt : b.write_pointer < b.extents.length := by
        rcases Nat.lt_or_ge b.write_pointer b.extents.length with h1 | h1
        · exact h1
        · exfalso
          have he : b.write_pointer = b.extents.length := by omega
          rw [List.getD_eq_getElem _ _ (by rw [hlen]; omega),
            List.getElem_concat_length _ _ _ he, hf,
            write_window_size_mkFresh] at hadv
          omega
      have hadv2 : (b.extents[b.write_pointer]).write_window_size = 0 := by
        rw [List.getD_eq_getElem _ _ (by rw [hlen]; omega),
          List.getElem_append_left hwplt] at hadv
        exact hadv
      rw [if_pos hadv]
      refine ⟨hpos, by dsimp only; rw [hlen]; omega, ?_, ?_, ?_, ?_, ?_⟩
        <;> dsimp only
      · intro i hi
        by_cases hin : i < b.extents.length
        · rw [List.getElem_append_left hin]
          exact hWFe i hin
        · have he : i = b.extents.length := by rw [hlen] at hi; omega
          subst he
          rw [hgetf hi, hf]
          exact fixed_buffer_WF_mkFresh _
      · intro i hi hlt
        by_cases hin : i < b.extents.length
        · rw [List.getElem_append_left hin]
          rcases Nat.lt_or_ge i b.write_pointer with h2 | h2
          · exact hfull i hin h2
          · have he : i = b.write_pointer := by omega
            subst he
            exact hadv2
        · exfalso
          rw [hlen] at hi
          omega
      · intro i hi hlt
        by_cases hin : i < b.extents.length
        · rw [List.getElem_append_left hin]
          exact hempty i hin (by omega)
        · have he : i = b.extents.length := by rw [hlen] at hi; omega
          subst he
          rw [hgetf hi, hf]
          exact ⟨rfl, rfl⟩
      · intro i hi hlt
        by_cases hin : i < b.extents.length
        · rw [List.getElem_append_left hin]
          exact hr0 i hin hlt
        · have he : i = b.extents.length := by rw [hlen] at hi; omega
          subst he
          rw [hgetf hi, hf]
          rfl
      · intro hlen0
        have h0 : 0 < b.extents.length := by omega
        rw [List.getElem_append_left h0]
        exact hfront h0
    · rw [if_neg hadv]
      have hlen : (b.extents ++ [f]).length = b.extents.length + 1 := by
        simp
      have hgetf : ∀ h2 : b.extents.length < (b.extents ++ [f]).length,
          (b.extents ++ [f])[b.extents.length] = f := fun h2 =>
        List.getElem_concat_length _ _ _ rfl h2
      refine ⟨hpos, by dsimp only; rw [hlen]; omega, ?_, ?_, ?_, ?_, ?_⟩
        <;> dsimp only
      · intro i hi
        by_cases hin : i < b.extents.length
        · rw [List.getElem_append_left hin]
          exact hWFe i hin
        · have he : i = b.extents.length := by rw [hlen] at hi; omega
          subst he
          rw [hgetf hi, hf]
          exact fixed_buffer_WF_mkFresh _
      · intro i hi hlt
        have hin : i < b.extents.length := by omega
        rw [List.getElem_append_left hin]
        exact hfull i hin hlt
      · intro i hi hlt
        by_cases hin : i < b.extents.length
        · rw [List.getElem_append_left hin]
          exact hempty i hin hlt
        · have he : i = b.extents.length := by rw [hlen] at hi; omega
          subst he
          rw [hgetf hi, hf]
          exact ⟨rfl, rfl⟩
      · intro i hi hlt
        by_cases hin : i < b.extents.length
        · rw [List.getElem_append_left hin]
          exact hr0 i hin hlt
        · have he : i = b.extents.length := by rw [hlen] at hi; omega
          subst he
          rw [hgetf hi, hf]
          rfl
      · intro hlen0
        by_cases h0 : 0 < b.extents.length
        · rw [List.getElem_append_left h0]
          exact hfront h0
        · have hnil : b.extents = [] :=
            List.eq_nil_of_length_eq_zero (by omega)
          intro hc
          obtain ⟨hc1, hc2⟩ := hc
          have hg0 : (b.extents ++ [f])[0] = f :=
            List.getElem_concat_length _ _ _ (by omega) _
          rw [hg0, hf, write_window_size_mkFresh] at hc2
          omega
  · exact ⟨hpos, hwp, hWFe, hfull, hempty, hr0, hfront⟩
/-! ## Dynamic buffer: the write loop -/

theorem extsWF_append_fresh {α : Type} [Inhabited α] {esize : Nat}
    {exts : List (fixed_buffer α)} {wp : Nat} (hpos : 0 < esize)
    (h : dynamic_buffer.extsWF esize exts wp) :
    dynamic_buffer.extsWF esize (exts ++ [fixed_buffer.mkFresh α esize])
      wp := by
  obtain ⟨hwp, hWFe, hfull, hempty, hr0, hfront⟩ := h
  have hlen : (exts ++ [fixed_buffer.mkFresh α esize]).length =
      exts.length + 1 := by simp
  refine ⟨by omega, ?_, ?_, ?_, ?_, ?_⟩
  · intro i hi
    by_cases hin : i < exts.length
    · rw [List.getElem_append_left hin]
      exact hWFe i hin
    · rw [List.getElem_concat_length _ _ _ (by rw [hlen] at hi; omega)]
      exact fixed_buffer_WF_mkFresh _
  · intro i hi hlt
    have hin : i < exts.length := by omega
    rw [List.getElem_append_left hin]
    exact hfull i hin hlt
  · intro i hi hlt
    by_cases hin : i < exts.length
    · rw [List.getElem_append_left hin]
      exact hempty i hin hlt
    · rw [List.getElem_concat_length _ _ _ (by rw [hlen] at hi; omega)]
      exact ⟨rfl, rfl⟩
  · intro i hi hlt
    by_cases hin : i < exts.length
    · rw [List.getElem_append_left hin]
      exact hr0 i hin hlt
    · rw [List.getElem_concat_length _ _ _ (by rw [hlen] at hi; omega)]
      rfl
  · intro hlen0
    by_cases h0 : 0 < exts.length
    · rw [List.getElem_append_left h0]
      exact hfront h0
    · rw [List.getElem_concat_length _ _ _ (by omega)]
      intro hc
      have h2 := hc.2
      rw [write_window_size_mkFresh] at h2
      omega

theorem contentOf_append_fresh {α : Type} [Inhabited α]
    (exts : List (fixed_buffer α)) (esize : Nat) :
    dynamic_buffer.contentOf (exts ++ [fixed_buffer.mkFresh α esize]) =
      dynamic_buffer.contentOf exts := by
  rw [contentOf_append, contentOf_cons, contentOf_nil, read_window_mkFresh,
    List.nil_append, List.append_nil]

theorem contentOf_drop_nil {α : Type} {esize : Nat}
    {exts : List (fixed_buffer α)} {wp : Nat}
    (h : dynamic_buffer.extsWF esize exts wp) :
    dynamic_buffer.contentOf (exts.drop (wp + 1)) = [] := by
  obtain ⟨hwp, hWFe, hfull, hempty, hr0, hfront⟩ := h
  apply contentOf_eq_nil_of_all
  intro e he
  obtain ⟨j, hj, hje⟩ := List.mem_iff_getElem.mp he
  rw [List.getElem_drop] at hje
  have hlt : wp + 1 + j < exts.length := by
    rw [List.length_drop] at hj
    omega
  obtain ⟨h1, h2⟩ := hempty (wp + 1 + j) hlt (by omega)
  rw [← hje]
  unfold fixed_buffer.read_window_size
  omega

theorem extsWF_set_write_gen {α : Type} (esize : Nat)
    (E : List (fixed_buffer α)) (wp : Nat) (buf : List α)
    (hW : dynamic_buffer.extsWF esize E wp) (hlt : wp < E.length) :
    dynamic_buffer.extsWF esize (E.set wp ((E[wp]).write buf).1) wp ∧
    (((E[wp]).write buf).1.write_window_size = 0 →
      dynamic_buffer.extsWF esize (E.set wp ((E[wp]).write buf).1)
        (wp + 1)) := by
  obtain ⟨hwp, hWFe, hfull, hempty, hr0, hfront⟩ := hW
  obtain ⟨hcap, hrw, hwcap⟩ := hWFe wp hlt
  have hcan2 : min buf.length ((E[wp]).buf.length - (E[wp]).w) ≤
      (E[wp]).buf.length - (E[wp]).w := Nat.min_le_right _ _
  have hp1r : ((E[wp]).write buf).1.r = (E[wp]).r := rfl
  have hp1w : ((E[wp]).write buf).1.w =
      (E[wp]).w + min buf.length ((E[wp]).buf.length - (E[wp]).w) := rfl
  have hp1len : ((E[wp]).write buf).1.buf.length = (E[wp]).buf.length := by
    show (copyAt _ _ _).length = _
    apply copyAt_length
    rw [List.length_take]
    omega
  have hlen : (E.set wp ((E[wp]).write buf).1).length = E.length :=
    List.length_set _ _ _
  have hWF1 : fixed_buffer.WF esize ((E[wp]).write buf).1 := by
    refine ⟨by rw [hp1len, hcap], ?_, ?_⟩
    · rw [hp1r, hp1w]
      omega
    · rw [hp1w]
      omega
  have hget : ∀ i (hi : i < E.length) (hi2 : i < (E.set wp
      ((E[wp]).write buf).1).length), i ≠ wp →
      (E.set wp ((E[wp]).write buf).1)[i] = E[i] := by
    intro i hi hi2 hne
    exact List.getElem_set_ne (fun hc => hne hc.symm) _
  have hgetwp : ∀ hi2 : wp < (E.set wp ((E[wp]).write buf).1).length,
      (E.set wp ((E[wp]).write buf).1)[wp] = ((E[wp]).write buf).1 :=
    fun hi2 => List.getElem_set_self _
  have hfront1 : ∀ h : 0 < (E.set wp ((E[wp]).write buf).1).length,
      ¬(((E.set wp ((E[wp]).write buf).1)[0]).read_window_size = 0 ∧
        ((E.set wp ((E[wp]).write buf).1)[0]).write_window_size = 0) := by
    intro h0 hc
    by_cases hwp0 : wp = 0
    · subst hwp0
      rw [hgetwp h0] at hc
      obtain ⟨hc1, hc2⟩ := hc
      unfold fixed_buffer.read_window_size at hc1
      unfold fixed_buffer.write_window_size at hc2
      rw [hp1r, hp1w] at hc1
      rw [hp1w, hp1len] at hc2
      have hfr := hfront (by omega)
      unfold fixed_buffer.read_window_size
        fixed_buffer.write_window_size at hfr
      omega
    · rw [hget 0 (by omega) h0 (fun hc2 => hwp0 hc2.symm)] at hc
      exact hfront (by omega) hc
  constructor
  · refine ⟨by omega, ?_, ?_, ?_, ?_, hfront1⟩
    · intro i hi
      by_cases hiw : i = wp
      · subst hiw
        rw [hgetwp hi]
        exact hWF1
      · rw [hget i (by omega) hi hiw]
        exact hWFe i (by omega)
    · intro i hi hltw
      rw [hget i (by omega) hi (by omega)]
      exact hfull i (by omega) hltw
    · intro i hi hltw
      rw [hget i (by omega) hi (by omega)]
      exact hempty i (by omega) hltw
    · intro i hi hpos
      by_cases hiw : i = wp
      · subst hiw
        rw [hgetwp hi, hp1r]
        exact hr0 i hlt hpos
      · rw [hget i (by omega) hi hiw]
        exact hr0 i (by omega) hpos
  · intro hfull1
    refine ⟨by omega, ?_, ?_, ?_, ?_, hfront1⟩
    · intro i hi
      by_cases hiw : i = wp
      · subst hiw
        rw [hgetwp hi]
        exact hWF1
      · rw [hget i (by omega) hi hiw]
        exact hWFe i (by omega)
    · intro i hi hltw
      by_cases hiw : i = wp
      · subst hiw
        rw [hgetwp hi]
        exact hfull1
      · rw [hget i (by omega) hi hiw]
        exact hfull i (by omega) (by omega)
    · intro i hi hltw
      rw [hget i (by omega) hi (by omega)]
      exact hempty i (by omega) (by omega)
    · intro i hi hpos
      by_cases hiw : i = wp
      · subst hiw
        rw [hgetwp hi, hp1r]
        exact hr0 i hlt hpos
      · rw [hget i (by omega) hi hiw]
        exact hr0 i (by omega) hpos

theorem contentOf_set_write {α : Type} (esize : Nat)
    (E : List (fixed_buffer α)) (wp : Nat) (buf : List α)
    (hW : dynamic_buffer.extsWF esize E wp) (hlt : wp < E.length) :
    dynamic_buffer.contentOf (E.set wp ((E[wp]).write buf).1) =
      dynamic_buffer.contentOf E ++ buf.take ((E[wp]).write buf).2 := by
  obtain ⟨hcap, hrw, hwcap⟩ := hW.2.1 wp hlt
  rw [contentOf_set _ _ hlt, contentOf_decomp E wp hlt,
    read_window_write _ _ hrw (by omega), contentOf_drop_nil hW]
  simp [List.append_assoc]

theorem writeLoop_spec {α : Type} [Inhabited α] (fuel : Nat) :
    ∀ (esize : Nat) (exts : List (fixed_buffer α)) (wp : Nat)
      (buf : List α), 0 < esize →
      dynamic_buffer.extsWF esize exts wp →
      buf.length + (exts.length - wp) + 1 ≤ fuel →
      ∃ exts' wp',
        writeLoop fuel esize exts wp buf = some (exts', wp') ∧
        dynamic_buffer.extsWF esize exts' wp' ∧
        exts' ≠ [] ∧
        dynamic_buffer.contentOf exts' =
          dynamic_buffer.contentOf exts ++ buf := by
  induction fuel with
  | zero =>
    intro esize exts wp buf hpos hW hfuel
    omega
  | succ fuel ih =>
    intro esize exts wp buf hpos hW hfuel
    simp only [writeLoop]
    by_cases happ : wp = exts.length
    · rw [if_pos happ]
      set E := exts ++ [fixed_buffer.mkFresh α esize] with hE
      have hWE : dynamic_buffer.extsWF esize E wp :=
        extsWF_append_fresh hpos hW
      have hElen : E.length = exts.length + 1 := by
        rw [hE]
        simp
      have hlt : wp < E.length := by omega
      rw [dif_pos hlt]
      simp only [List.get_eq_getElem]
      have hEwp : E[wp] = fixed_buffer.mkFresh α esize :=
        List.getElem_concat_length _ _ _ happ _
      have hcE : dynamic_buffer.contentOf E =
          dynamic_buffer.contentOf exts := contentOf_append_fresh exts esize
      have hww : (E[wp]).buf.length - (E[wp]).w = esize := by
        rw [hEwp]
        simp [fixed_buffer.mkFresh]
      have hp2 : ((E[wp]).write buf).2 =
          min buf.length ((E[wp]).buf.length - (E[wp]).w) := rfl
      split_ifs with hstop
      · rw [List.length_drop] at hstop
        refine ⟨_, _, rfl, (extsWF_set_write_gen esize E wp buf hWE hlt).1,
          ?_, ?_⟩
        · apply List.ne_nil_of_length_pos
          rw [List.length_set]
          omega
        · rw [contentOf_set_write esize E wp buf hWE hlt,
            hcE, List.take_of_length_le (by omega)]
      · have hlt2 : ((E[wp]).write buf).2 < buf.length := by
          rw [List.length_drop] at hstop
          omega
        have hfull1 : (((E[wp]).write buf).1).write_window_size = 0 := by
          unfold fixed_buffer.write_window_size
          have h1 : (((E[wp]).write buf).1).w =
              (E[wp]).w + min buf.length
                ((E[wp]).buf.length - (E[wp]).w) := rfl
          have h2 : (((E[wp]).write buf).1).buf.length =
              (E[wp]).buf.length := by
            show (copyAt _ _ _).length = _
            apply copyAt_length
            rw [List.length_take]
            omega
          omega
        obtain ⟨exts2, wp2, heq, hW2, hne2, hcont2⟩ :=
          ih esize (E.set wp ((E[wp]).write buf).1) (wp + 1)
            (buf.drop ((E[wp]).write buf).2) hpos
            ((extsWF_set_write_gen esize E wp buf hWE hlt).2 hfull1)
            (by rw [List.length_drop, List.length_set]; omega)
        refine ⟨exts2, wp2, heq, hW2, hne2, ?_⟩
        rw [hcont2, contentOf_set_write esize E wp buf hWE hlt,
          hcE, List.append_assoc, List.take_append_drop]
    · rw [if_neg happ]
      have hlt : wp < exts.length := by
        have := hW.1
        omega
      rw [dif_pos hlt]
      simp only [List.get_eq_getElem]
      have hp2 : ((exts[wp]).write buf).2 =
          min buf.length ((exts[wp]).buf.length - (exts[wp]).w) := rfl
      split_ifs with hstop
      · rw [List.length_drop] at hstop
        refine ⟨_, _, rfl,
          (extsWF_set_write_gen esize exts wp buf hW hlt).1, ?_, ?_⟩
        · apply List.ne_nil_of_length_pos
          rw [List.length_set]
          omega
        · rw [contentOf_set_write esize exts wp buf hW hlt,
            List.take_of_length_le (by omega)]
      · have hlt2 : ((exts[wp]).write buf).2 < buf.length := by
          rw [List.length_drop] at hstop
          omega
        obtain ⟨hcap, hrw, hwcap⟩ := hW.2.1 wp hlt
        have hfull1 : (((exts[wp]).write buf).1).write_window_size = 0 := by
          unfold fixed_buffer.write_window_size
          have h1 : (((exts[wp]).write buf).1).w =
              (exts[wp]).w + min buf.length
                ((exts[wp]).buf.length - (exts[wp]).w) := rfl
          have h2 : (((exts[wp]).write buf).1).buf.length =
              (exts[wp]).buf.length := by
            show (copyAt _ _ _).length = _
            apply copyAt_length
            rw [List.length_take]
            omega
          omega
        obtain ⟨exts2, wp2, heq, hW2, hne2, hcont2⟩ :=
          ih esize (exts.set wp ((exts[wp]).write buf).1) (wp + 1)
            (buf.drop ((exts[wp]).write buf).2) hpos
            ((extsWF_set_write_gen esize exts wp buf hW hlt).2 hfull1)
            (by rw [List.length_drop, List.length_set]; omega)
        refine ⟨exts2, wp2, heq, hW2, hne2, ?_⟩
        rw [hcont2, contentOf_set_write esize exts wp buf hW hlt,
          List.append_assoc, List.take_append_drop]

/-- `dynamic_buffer::write` on an invariant-respecting state always
succeeds, consumes the whole source, returns its length, preserves the
invariant and appends the source to the unread content. -/
theorem dwrite_spec {α : Type} [Inhabited α] (b : dynamic_buffer α)
    (src : List α) (hI : b.INV) :
    ∃ b', b.write src = some (b', src.length) ∧ b'.INV ∧
      b'.content = b.content ++ src ∧
      b'.extent_size = b.extent_size := by
  obtain ⟨hpos, hW⟩ := hI
  unfold dynamic_buffer.write
  by_cases hsrc : src.length = 0
  · rw [if_pos hsrc]
    have hnil : src = [] := List.length_eq_zero.mp hsrc
    refine ⟨b, by rw [hsrc], ⟨hpos, hW⟩, ?_, rfl⟩
    rw [hnil, List.append_nil]
  · rw [if_neg hsrc]
    obtain ⟨exts', wp', heq, hW', hne', hcont'⟩ :=
      writeLoop_spec (src.length + b.extents.length + 1) b.extent_size
        b.extents b.write_pointer src hpos hW (by have := hW.1; omega)
    rw [heq]
    refine ⟨_, rfl, ?_, ?_, ?_⟩
    · exact ensure_minfree_INV ⟨hpos, hW'⟩
    · show dynamic_buffer.content (dynamic_buffer.ensure_minfree _) = _
      rw [ensure_minfree_content]
      exact hcont'
    · rw [ensure_minfree_extent_size]

/-! ## Dynamic buffer: the read and discard loops -/

theorem read_window_read {α : Type} (e : fixed_buffer α) (cap : Nat)
    (hr : e.r ≤ e.w) (hw : e.w ≤ e.buf.length) :
    (e.read cap).2 = e.read_window.take (min cap e.read_window_size) ∧
    (e.read cap).1.read_window =
      e.read_window.drop (min cap e.read_window_size) ∧
    (e.read cap).2.length = min cap e.read_window_size ∧
    (e.read cap).1.read_window_size =
      e.read_window_size - min cap e.read_window_size ∧
    (e.read cap).1.write_window_size = e.write_window_size ∧
    (e.read cap).1.buf = e.buf ∧
    (e.read cap).1.w = e.w ∧
    (e.read cap).1.r = e.r + min cap e.read_window_size := by
  unfold fixed_buffer.read fixed_buffer.read_window
    fixed_buffer.read_window_size fixed_buffer.write_window_size
  dsimp only
  refine ⟨?_, ?_, ?_, by omega, rfl, rfl, rfl, rfl⟩
  · rw [listSlice_take _ _ _ _ (by omega)]
  · rw [listSlice_drop]
    have h2 : e.w - (e.r + min cap (e.w - e.r)) =
        (e.w - e.r) - min cap (e.w - e.r) := by omega
    rw [h2]
  · rw [listSlice_length]
    omega

theorem discard_fixed {α : Type} (e : fixed_buffer α) (n : Nat)
    (hr : e.r ≤ e.w) (hw : e.w ≤ e.buf.length) :
    (e.discard n).2 = min n e.read_window_size ∧
    (e.discard n).1.read_window =
      e.read_window.drop (min n e.read_window_size) ∧
    (e.discard n).1.read_window_size =
      e.read_window_size - min n e.read_window_size ∧
    (e.discard n).1.write_window_size = e.write_window_size ∧
    (e.discard n).1.buf = e.buf ∧
    (e.discard n).1.w = e.w ∧
    (e.discard n).1.r = e.r + min n e.read_window_size := by
  unfold fixed_buffer.discard fixed_buffer.read_window
    fixed_buffer.read_window_size fixed_buffer.write_window_size
  dsimp only
  refine ⟨rfl, ?_, by omega, rfl, rfl, rfl, rfl⟩
  rw [listSlice_drop]
  have h2 : e.w - (e.r + min n (e.w - e.r)) =
      (e.w - e.r) - min n (e.w - e.r) := by omega
  rw [h2]

/-- Under the deque invariant, an empty front readable window forces the
whole buffer to be empty of readable data (the property behind claim C10).
-/
theorem front_zero_all {α : Type} {esize : Nat} {front : fixed_buffer α}
    {rest : List (fixed_buffer α)} {wp : Nat} (hpos : 0 < esize)
    (hW : dynamic_buffer.extsWF esize (front :: rest) wp)
    (h0 : front.read_window_size = 0) :
    (∀ e ∈ front :: rest, e.read_window_size = 0) ∧
    dynamic_buffer.contentOf (front :: rest) = [] ∧
    dynamic_buffer.rtotalOf (front :: rest) = 0 := by
  obtain ⟨hwp, hWFe, hfull, hempty, hr0, hfront⟩ := hW
  have hwp0 : wp = 0 := by
    by_contra hne
    have h1 := hfull 0 (by simp) (by omega)
    exact hfront (by simp) ⟨h0, h1⟩
  have hall : ∀ e ∈ front :: rest, e.read_window_size = 0 := by
    intro e he
    obtain ⟨j, hj, hje⟩ := List.mem_iff_getElem.mp he
    rcases Nat.eq_zero_or_pos j with hj0 | hjpos
    · subst hj0
      rw [List.getElem_cons_zero] at hje
      rw [← hje]
      exact h0
    · obtain ⟨h1, h2⟩ := hempty j hj (by omega)
      rw [← hje]
      unfold fixed_buffer.read_window_size
      omega
  refine ⟨hall, contentOf_eq_nil_of_all _ hall, ?_⟩
  have hlen := contentOf_length esize (front :: rest)
    (fun e he => by
      obtain ⟨j, hj, hje⟩ := List.mem_iff_getElem.mp he
      rw [← hje]
      exact hWFe j hj)
  rw [contentOf_eq_nil_of_all _ hall] at hlen
  simp at hlen
  omega

/-- Reading or discarding advances only the front extent's read cursor; the
deque invariant is preserved, both when the front survives and when it dies
and is removed. -/
theorem extsWF_front_advance {α : Type} {esize : Nat}
    {front : fixed_buffer α} {rest : List (fixed_buffer α)} {wp : Nat}
    (hpos : 0 < esize)
    (hW : dynamic_buffer.extsWF esize (front :: rest) wp)
    (e' : fixed_buffer α) (hbuf : e'.buf = front.buf) (hw : e'.w = front.w)
    (hr1 : front.r ≤ e'.r) (hr2 : e'.r ≤ front.w) :
    (¬(e'.read_window_size = 0 ∧ e'.write_window_size = 0) →
      dynamic_buffer.extsWF esize (e' :: rest) wp) ∧
    dynamic_buffer.extsWF esize rest (wp - 1) := by
  obtain ⟨hwp, hWFe, hfull, hempty, hr0, hfront⟩ := hW
  obtain ⟨hc0, hro0, hwc0⟩ := hWFe 0 (by simp)
  rw [List.getElem_cons_zero] at hc0 hro0 hwc0
  constructor
  · intro hnd
    refine ⟨by simpa using hwp, ?_, ?_, ?_, ?_, fun h => by
      rw [List.getElem_cons_zero]
      exact hnd⟩
    · intro i hi
      rcases Nat.eq_zero_or_pos i with hi0 | hipos
      · subst hi0
        rw [List.getElem_cons_zero]
        refine ⟨by rw [hbuf, hc0], by omega, by omega⟩
      · obtain ⟨j, rfl⟩ := Nat.exists_eq_add_of_lt hipos
        simp only [Nat.zero_add] at hi ⊢
        rw [List.getElem_cons_succ]
        have := hWFe (j + 1) (by simpa using hi)
        rw [List.getElem_cons_succ] at this
        exact this
    · intro i hi hlt
      rcases Nat.eq_zero_or_pos i with hi0 | hipos
      · subst hi0
        rw [List.getElem_cons_zero]
        have := hfull 0 (by simp) hlt
        rw [List.getElem_cons_zero] at this
        unfold fixed_buffer.write_window_size at this ⊢
        rw [hbuf, hw]
        exact this
      · obtain ⟨j, rfl⟩ := Nat.exists_eq_add_of_lt hipos
        simp only [Nat.zero_add] at hi ⊢
        rw [List.getElem_cons_succ]
        have := hfull (j + 1) (by simpa using hi) (by omega)
        rw [List.getElem_cons_succ] at this
        exact this
    · intro i hi hlt
      obtain ⟨j, rfl⟩ := Nat.exists_eq_add_of_lt (show 0 < i by omega)
      simp only [Nat.zero_add] at hi ⊢
      rw [List.getElem_cons_succ]
      have := hempty (j + 1) (by simpa using hi) (by omega)
      rw [List.getElem_cons_succ] at this
      exact this
    · intro i hi hlt
      obtain ⟨j, rfl⟩ := Nat.exists_eq_add_of_lt hlt
      simp only [Nat.zero_add] at hi ⊢
      rw [List.getElem_cons_succ]
      have := hr0 (j + 1) (by simpa using hi) (by omega)
      rw [List.getElem_cons_succ] at this
      exact this
  · refine ⟨by simp at hwp; omega, ?_, ?_, ?_, ?_, ?_⟩
    · intro i hi
      have := hWFe (i + 1) (by simpa using hi)
      rw [List.getElem_cons_succ] at this
      exact this
    · intro i hi hlt
      have := hfull (i + 1) (by simpa using hi) (by omega)
      rw [List.getElem_cons_succ] at this
      exact this
    · intro i hi hlt
      have := hempty (i + 1) (by simpa using hi) (by omega)
      rw [List.getElem_cons_succ] at this
      exact this
    · intro i hi hlt
      have := hr0 (i + 1) (by simpa using hi) (by omega)
      rw [List.getElem_cons_succ] at this
      exact this
    · intro h0 hc
      have hW1 := hWFe 1 (by simpa using h0)
      rw [List.getElem_cons_succ] at hW1
      obtain ⟨hc1, hro1, hwc1⟩ := hW1
      have hr1z := hr0 1 (by simpa using h0) (by omega)
      rw [List.getElem_cons_succ] at hr1z
      obtain ⟨hd1, hd2⟩ := hc
      unfold fixed_buffer.read_window_size at hd1
      unfold fixed_buffer.write_window_size at hd2
      omega

theorem take_append_min {α : Type} (W C : List α) (rem rws rt : Nat)
    (hW : W.length = rws) (hC : C.length = rt) :
    (W ++ C).take (min rem (rws + rt)) =
      W.take (min rem rws) ++
        C.take (min (rem - min rem rws) (rws - min rem rws + rt)) ∧
    (W ++ C).drop (min rem (rws + rt)) =
      W.drop (min rem rws) ++
        C.drop (min (rem - min rem rws) (rws - min rem rws + rt)) := by
  rcases Nat.le_total rem rws with hle | hle
  · have h1 : min rem rws = rem := Nat.min_eq_left hle
    have h2 : min rem (rws + rt) = rem := Nat.min_eq_left (by omega)
    rw [h1, h2, show min (rem - rem) (rws - rem + rt) = 0 from by omega,
      List.take_zero, List.append_nil, List.drop_zero,
      List.take_append_eq_append_take, List.drop_append_eq_append_drop,
      show rem - W.length = 0 from by omega, List.take_zero,
      List.append_nil, List.drop_zero]
    exact ⟨rfl, rfl⟩
  · have h1 : min rem rws = rws := Nat.min_eq_right hle
    rw [h1, show min rem (rws + rt) =
        rws + min (rem - rws) (rws - rws + rt) from by omega,
      List.take_append_eq_append_take, List.drop_append_eq_append_drop,
      show rws + min (rem - rws) (rws - rws + rt) - W.length =
        min (rem - rws) (rws - rws + rt) from by omega,
      List.take_of_length_le
        (show W.length ≤ rws + min (rem - rws) (rws - rws + rt) from
          by omega),
      List.drop_eq_nil_of_le
        (show W.length ≤ rws + min (rem - rws) (rws - rws + rt) from
          by omega),
      List.nil_append,
      List.take_of_length_le (le_of_eq hW),
      List.drop_eq_nil_of_le (le_of_eq hW), List.nil_append]
    exact ⟨rfl, rfl⟩

theorem readLoop_spec {α : Type} (fuel : Nat) :
    ∀ (esize : Nat) (exts : List (fixed_buffer α)) (wp remaining : Nat)
      (acc : List α), 0 < esize →
      dynamic_buffer.extsWF esize exts wp →
      0 < remaining → remaining + 1 ≤ fuel →
      ∃ exts' wp',
        readLoop fuel exts wp remaining acc =
          some (exts', wp',
            acc ++ (dynamic_buffer.contentOf exts).take
              (min remaining (dynamic_buffer.rtotalOf exts))) ∧
        dynamic_buffer.extsWF esize exts' wp' ∧
        dynamic_buffer.contentOf exts' =
          (dynamic_buffer.contentOf exts).drop
            (min remaining (dynamic_buffer.rtotalOf exts)) := by
  induction fuel with
  | zero =>
    intro esize exts wp remaining acc hpos hW hrem hfuel
    omega
  | succ fuel ih =>
    intro esize exts wp remaining acc hpos hW hrem hfuel
    cases exts with
    | nil =>
      simp only [readLoop]
      refine ⟨[], wp, ?_, hW, ?_⟩
      · rw [contentOf_nil, List.take_nil, List.append_nil]
      · rw [contentOf_nil, List.drop_nil]
    | cons front rest =>
      simp only [readLoop]
      have hWF0 := hW.2.1 0 (by simp)
      rw [List.getElem_cons_zero] at hWF0
      obtain ⟨hc0, hro0, hwc0⟩ := hWF0
      by_cases h0 : front.read_window_size = 0
      · rw [if_pos h0]
        obtain ⟨hall, hcnil, hrt0⟩ := front_zero_all hpos hW h0
        refine ⟨front :: rest, wp, ?_, hW, ?_⟩
        · rw [hrt0, Nat.min_zero, List.take_zero, List.append_nil]
        · rw [hrt0, Nat.min_zero, List.drop_zero]
      · rw [if_neg h0]
        obtain ⟨hp2, hpw, hplen, hprs, hpws, hpbuf, hpww, hpr⟩ :=
          read_window_read front remaining hro0 (by omega)
        have hWlen : front.read_window.length = front.read_window_size :=
          read_window_length front hro0 (by omega)
        have hrdef : front.read_window_size = front.w - front.r := rfl
        have hCrt : (dynamic_buffer.contentOf rest).length =
            dynamic_buffer.rtotalOf rest := by
          apply contentOf_length esize
          intro e he
          obtain ⟨j, hj, hje⟩ := List.mem_iff_getElem.mp he
          have hj1 := hW.2.1 (j + 1) (by simpa using hj)
          rw [List.getElem_cons_succ] at hj1
          rw [← hje]
          exact hj1
        have hadv := extsWF_front_advance hpos hW (front.read remaining).1
          hpbuf hpww (by rw [hpr]; omega) (by rw [hpr]; omega)
        have hTA := take_append_min front.read_window
          (dynamic_buffer.contentOf rest) remaining front.read_window_size
          (dynamic_buffer.rtotalOf rest) hWlen hCrt
        by_cases hdead : (front.read remaining).1.read_window_size = 0 ∧
            (front.read remaining).1.write_window_size = 0
        · rw [if_pos hdead]
          obtain ⟨hd1, hd2⟩ := hdead
          dsimp only
          have hcont1 : dynamic_buffer.contentOf rest =
              front.read_window.drop
                (min remaining front.read_window_size) ++
                dynamic_buffer.contentOf rest := by
            rw [List.drop_eq_nil_of_le (by omega), List.nil_append]
          by_cases hstop : remaining - (front.read remaining).2.length = 0
          · rw [if_pos hstop]
            rw [hplen] at hstop
            refine ⟨rest, wp - 1, ?_, hadv.2, ?_⟩
            · rw [contentOf_cons, rtotalOf_cons, hTA.1,
                show min (remaining - min remaining front.read_window_size)
                  (front.read_window_size -
                    min remaining front.read_window_size +
                    dynamic_buffer.rtotalOf rest) = 0 from by omega,
                List.take_zero, List.append_nil, ← hp2]
            · rw [contentOf_cons, rtotalOf_cons, hTA.2,
                show min (remaining - min remaining front.read_window_size)
                  (front.read_window_size -
                    min remaining front.read_window_size +
                    dynamic_buffer.rtotalOf rest) = 0 from by omega,
                List.drop_zero]
              exact hcont1
          · rw [if_neg hstop]
            rw [hplen] at hstop
            have hcanrws : min remaining front.read_window_size =
                front.read_window_size := by omega
            rw [hplen, hp2, hcanrws,
              List.take_of_length_le (le_of_eq hWlen)]
            obtain ⟨E2, w2, hE2eq, hE2W, hE2c⟩ :=
              ih esize rest (wp - 1)
                (remaining - front.read_window_size)
                (acc ++ front.read_window) hpos hadv.2 (by omega)
                (by omega)
            refine ⟨E2, w2, ?_, hE2W, ?_⟩
            · rw [hE2eq, List.append_assoc, contentOf_cons, rtotalOf_cons,
                hTA.1, hcanrws, List.take_of_length_le (le_of_eq hWlen),
                show front.read_window_size - front.read_window_size +
                  dynamic_buffer.rtotalOf rest =
                  dynamic_buffer.rtotalOf rest from by omega]
            · rw [hE2c, contentOf_cons, rtotalOf_cons, hTA.2, hcanrws,
                List.drop_eq_nil_of_le (le_of_eq hWlen), List.nil_append,
                show front.read_window_size - front.read_window_size +
                  dynamic_buffer.rtotalOf rest =
                  dynamic_buffer.rtotalOf rest from by omega]
        · rw [if_neg hdead]
          dsimp only
          have hcont1 : dynamic_buffer.contentOf
              ((front.read remaining).1 :: rest) =
              front.read_window.drop
                (min remaining front.read_window_size) ++
                dynamic_buffer.contentOf rest := by
            rw [contentOf_cons, hpw]
          have hrt1 : dynamic_buffer.rtotalOf
              ((front.read remaining).1 :: rest) =
              front.read_window_size -
                min remaining front.read_window_size +
                dynamic_buffer.rtotalOf rest := by
            rw [rtotalOf_cons, hprs]
          by_cases hstop : remaining - (front.read remaining).2.length = 0
          · rw [if_pos hstop]
            rw [hplen] at hstop
            refine ⟨(front.read remaining).1 :: rest, wp, ?_,
              hadv.1 hdead, ?_⟩
            · rw [contentOf_cons, rtotalOf_cons, hTA.1,
                show min (remaining - min remaining front.read_window_size)
                  (front.read_window_size -
                    min remaining front.read_window_size +
                    dynamic_buffer.rtotalOf rest) = 0 from by omega,
                List.take_zero, List.append_nil, ← hp2]
            · rw [hcont1, contentOf_cons, rtotalOf_cons, hTA.2,
                show min (remaining - min remaining front.read_window_size)
                  (front.read_window_size -
                    min remaining front.read_window_size +
                    dynamic_buffer.rtotalOf rest) = 0 from by omega,
                List.drop_zero]
          · rw [if_neg hstop]
            rw [hplen] at hstop
            have hcanrws : min remaining front.read_window_size =
                front.read_window_size := by omega
            have hcont1' : dynamic_buffer.contentOf
                ((front.read remaining).1 :: rest) =
                dynamic_buffer.contentOf rest := by
              rw [hcont1, List.drop_eq_nil_of_le (by omega),
                List.nil_append]
            have hrt1' : dynamic_buffer.rtotalOf
                ((front.read remaining).1 :: rest) =
                dynamic_buffer.rtotalOf rest := by
              rw [hrt1]
              omega
            rw [hplen, hp2, hcanrws,
              List.take_of_length_le (le_of_eq hWlen)]
            obtain ⟨E2, w2, hE2eq, hE2W, hE2c⟩ :=
              ih esize ((front.read remaining).1 :: rest) wp
                (remaining - front.read_window_size)
                (acc ++ front.read_window) hpos (hadv.1 hdead) (by omega)
                (by omega)
            rw [hcont1', hrt1'] at hE2eq hE2c
            refine ⟨E2, w2, ?_, hE2W, ?_⟩
            · rw [hE2eq, List.append_assoc, contentOf_cons, rtotalOf_cons,
                hTA.1, hcanrws, List.take_of_length_le (le_of_eq hWlen),
                show front.read_window_size - front.read_window_size +
                  dynamic_buffer.rtotalOf rest =
                  dynamic_buffer.rtotalOf rest from by omega]
            · rw [hE2c, contentOf_cons, rtotalOf_cons, hTA.2, hcanrws,
                List.drop_eq_nil_of_le (le_of_eq hWlen), List.nil_append,
                show front.read_window_size - front.read_window_size +
                  dynamic_buffer.rtotalOf rest =
                  dynamic_buffer.rtotalOf rest from by omega]

/-- `dynamic_buffer::read` on an invariant-respecting state always
succeeds, returns the first `min cap rtotal` unread units, removes them
from the front, and preserves the invariant. -/
theorem dread_spec {α : Type} (b : dynamic_buffer α) (dstcap : Nat)
    (hI : b.INV) :
    ∃ b' out, b.read dstcap = some (b', out) ∧ b'.INV ∧
      out = b.content.take (min dstcap b.rtotal) ∧
      b'.content = b.content.drop (min dstcap b.rtotal) ∧
      b'.extent_size = b.extent_size ∧
      out.length = min dstcap b.rtotal := by
  obtain ⟨hpos, hW⟩ := hI
  have hrt : b.rtotal = dynamic_buffer.rtotalOf b.extents := rfl
  have hct : b.content = dynamic_buffer.contentOf b.extents := rfl
  have hlen : (dynamic_buffer.contentOf b.extents).length =
      dynamic_buffer.rtotalOf b.extents := by
    apply contentOf_length b.extent_size
    intro e he
    obtain ⟨j, hj, hje⟩ := List.mem_iff_getElem.mp he
    rw [← hje]
    exact hW.2.1 j hj
  unfold dynamic_buffer.read
  by_cases hcap : dstcap = 0
  · subst hcap
    rw [if_pos rfl]
    refine ⟨b, [], rfl, ⟨hpos, hW⟩, ?_, ?_, rfl, ?_⟩
    · rw [Nat.zero_min, List.take_zero]
    · rw [Nat.zero_min, List.drop_zero]
    · rw [Nat.zero_min]
      rfl
  · rw [if_neg hcap]
    obtain ⟨exts', wp', heq, hW', hc'⟩ :=
      readLoop_spec (dstcap + 1) b.extent_size b.extents b.write_pointer
        dstcap [] hpos hW (by omega) (by omega)
    rw [heq]
    dsimp only
    refine ⟨_, _, rfl, ⟨hpos, hW'⟩, ?_, ?_, rfl, ?_⟩
    · rw [List.nil_append, hrt, hct]
    · show dynamic_buffer.contentOf exts' = _
      rw [hc', hrt, hct]
    · rw [List.nil_append, List.length_take, hrt]
      omega

theorem discardLoop_spec {α : Type} (fuel : Nat) :
    ∀ (esize : Nat) (exts : List (fixed_buffer α)) (wp n nleft
      discards : Nat), 0 < esize →
      dynamic_buffer.extsWF esize exts wp →
      discards + nleft = n → nleft + 1 ≤ fuel →
      ∃ exts' wp',
        discardLoop fuel exts wp n nleft discards =
          some (exts', wp',
            discards + min nleft (dynamic_buffer.rtotalOf exts)) ∧
        dynamic_buffer.extsWF esize exts' wp' ∧
        dynamic_buffer.contentOf exts' =
          (dynamic_buffer.contentOf exts).drop
            (min nleft (dynamic_buffer.rtotalOf exts)) := by
  induction fuel with
  | zero =>
    intro esize exts wp n nleft discards hpos hW hinv hfuel
    omega
  | succ fuel ih =>
    intro esize exts wp n nleft discards hpos hW hinv hfuel
    cases exts with
    | nil =>
      simp only [discardLoop]
      refine ⟨[], wp, ?_, hW, ?_⟩
      · rw [rtotalOf_nil, Nat.min_zero, Nat.add_zero]
      · rw [contentOf_nil, List.drop_nil]
    | cons front rest =>
      simp only [discardLoop]
      have hWF0 := hW.2.1 0 (by simp)
      rw [List.getElem_cons_zero] at hWF0
      obtain ⟨hc0, hro0, hwc0⟩ := hWF0
      by_cases h0 : front.read_window_size = 0
      · rw [if_pos h0]
        obtain ⟨hall, hcnil, hrt0⟩ := front_zero_all hpos hW h0
        refine ⟨front :: rest, wp, ?_, hW, ?_⟩
        · rw [hrt0, Nat.min_zero, Nat.add_zero]
        · rw [hrt0, Nat.min_zero, List.drop_zero]
      · rw [if_neg h0]
        obtain ⟨hd2, hdw, hdrs, hdws, hdbuf, hdww, hdr⟩ :=
          discard_fixed front nleft hro0 (by omega)
        have hWlen : front.read_window.length = front.read_window_size :=
          read_window_length front hro0 (by omega)
        have hrdef : front.read_window_size = front.w - front.r := rfl
        have hCrt : (dynamic_buffer.contentOf rest).length =
            dynamic_buffer.rtotalOf rest := by
          apply contentOf_length esize
          intro e he
          obtain ⟨j, hj, hje⟩ := List.mem_iff_getElem.mp he
          have hj1 := hW.2.1 (j + 1) (by simpa using hj)
          rw [List.getElem_cons_succ] at hj1
          rw [← hje]
          exact hj1
        have hadv := extsWF_front_advance hpos hW (front.discard nleft).1
          hdbuf hdww (by rw [hdr]; omega) (by rw [hdr]; omega)
        have hTA := take_append_min front.read_window
          (dynamic_buffer.contentOf rest) nleft front.read_window_size
          (dynamic_buffer.rtotalOf rest) hWlen hCrt
        by_cases hdead : (front.discard nleft).1.read_window_size = 0 ∧
            (front.discard nleft).1.write_window_size = 0
        · rw [if_pos hdead]
          obtain ⟨hx1, hx2⟩ := hdead
          dsimp only
          by_cases hstop : discards + (front.discard nleft).2 = n
          · rw [if_pos hstop]
            rw [hd2] at hstop
            refine ⟨rest, wp - 1, ?_, hadv.2, ?_⟩
            · rw [hd2, rtotalOf_cons,
                show min nleft (front.read_window_size +
                  dynamic_buffer.rtotalOf rest) =
                  min nleft front.read_window_size from by omega]
            · rw [contentOf_cons, rtotalOf_cons, hTA.2,
                show min (nleft - min nleft front.read_window_size)
                  (front.read_window_size -
                    min nleft front.read_window_size +
                    dynamic_buffer.rtotalOf rest) = 0 from by omega,
                List.drop_zero,
                List.drop_eq_nil_of_le (by omega), List.nil_append]
          · rw [if_neg hstop]
            rw [hd2] at hstop
            have hcan : min nleft front.read_window_size =
                front.read_window_size := by omega
            rw [hd2, hcan]
            obtain ⟨E2, w2, hE2eq, hE2W, hE2c⟩ :=
              ih esize rest (wp - 1) n (nleft - front.read_window_size)
                (discards + front.read_window_size) hpos hadv.2 (by omega)
                (by omega)
            refine ⟨E2, w2, ?_, hE2W, ?_⟩
            · rw [hE2eq, rtotalOf_cons,
                show discards + front.read_window_size +
                  min (nleft - front.read_window_size)
                    (dynamic_buffer.rtotalOf rest) =
                  discards + min nleft (front.read_window_size +
                    dynamic_buffer.rtotalOf rest) from by omega]
            · rw [hE2c, contentOf_cons, rtotalOf_cons, hTA.2, hcan,
                List.drop_eq_nil_of_le (le_of_eq hWlen), List.nil_append,
                show front.read_window_size - front.read_window_size +
                  dynamic_buffer.rtotalOf rest =
                  dynamic_buffer.rtotalOf rest from by omega]
        · rw [if_neg hdead]
          dsimp only
          have hcont1 : dynamic_buffer.contentOf
              ((front.discard nleft).1 :: rest) =
              front.read_window.drop (min nleft front.read_window_size) ++
                dynamic_buffer.contentOf rest := by
            rw [contentOf_cons, hdw]
          have hrt1 : dynamic_buffer.rtotalOf
              ((front.discard nleft).1 :: rest) =
              front.read_window_size - min nleft front.read_window_size +
                dynamic_buffer.rtotalOf rest := by
            rw [rtotalOf_cons, hdrs]
          by_cases hstop : discards + (front.discard nleft).2 = n
          · rw [if_pos hstop]
            rw [hd2] at hstop
            refine ⟨(front.discard nleft).1 :: rest, wp, ?_,
              hadv.1 hdead, ?_⟩
            · rw [hd2, rtotalOf_cons,
                show min nleft (front.read_window_size +
                  dynamic_buffer.rtotalOf rest) =
                  min nleft front.read_window_size from by omega]
            · rw [hcont1, contentOf_cons, rtotalOf_cons, hTA.2,
                show min (nleft - min nleft front.read_window_size)
                  (front.read_window_size -
                    min nleft front.read_window_size +
                    dynamic_buffer.rtotalOf rest) = 0 from by omega,
                List.drop_zero]
          · rw [if_neg hstop]
            rw [hd2] at hstop
            have hcan : min nleft front.read_window_size =
                front.read_window_size := by omega
            have hcont1' : dynamic_buffer.contentOf
                ((front.discard nleft).1 :: rest) =
                dynamic_buffer.contentOf rest := by
              rw [hcont1, List.drop_eq_nil_of_le (by omega),
                List.nil_append]
            have hrt1' : dynamic_buffer.rtotalOf
                ((front.discard nleft).1 :: rest) =
                dynamic_buffer.rtotalOf rest := by
              rw [hrt1]
              omega
            rw [hd2, hcan]
            obtain ⟨E2, w2, hE2eq, hE2W, hE2c⟩ :=
              ih esize ((front.discard nleft).1 :: rest) wp n
                (nleft - front.read_window_size)
                (discards + front.read_window_size) hpos (hadv.1 hdead)
                (by omega) (by omega)
            rw [hrt1'] at hE2eq
            rw [hcont1', hrt1'] at hE2c
            refine ⟨E2, w2, ?_, hE2W, ?_⟩
            · rw [hE2eq, rtotalOf_cons,
                show discards + front.read_window_size +
                  min (nleft - front.read_window_size)
                    (dynamic_buffer.rtotalOf rest) =
                  discards + min nleft (front.read_window_size +
                    dynamic_buffer.rtotalOf rest) from by omega]
            · rw [hE2c, contentOf_cons, rtotalOf_cons, hTA.2, hcan,
                List.drop_eq_nil_of_le (le_of_eq hWlen), List.nil_append,
                show front.read_window_size - front.read_window_size +
                  dynamic_buffer.rtotalOf rest =
                  dynamic_buffer.rtotalOf rest from by omega]

/-- `dynamic_buffer::discard` on an invariant-respecting state always
succeeds, discards exactly `min n rtotal` units from the front, and
preserves the invariant. -/
theorem ddiscard_spec {α : Type} (b : dynamic_buffer α) (n : Nat)
    (hI : b.INV) :
    ∃ b', b.discard n = some (b', min n b.rtotal) ∧ b'.INV ∧
      b'.content = b.content.drop (min n b.rtotal) ∧
      b'.extent_size = b.extent_size := by
  obtain ⟨hpos, hW⟩ := hI
  have hrt : b.rtotal = dynamic_buffer.rtotalOf b.extents := rfl
  have hct : b.content = dynamic_buffer.contentOf b.extents := rfl
  unfold dynamic_buffer.discard
  obtain ⟨exts', wp', heq, hW', hc'⟩ :=
    discardLoop_spec (n + 1) b.extent_size b.extents b.write_pointer n n 0
      hpos hW (by omega) (by omega)
  rw [heq]
  dsimp only
  refine ⟨{ b with extents := exts', write_pointer := wp' }, ?_,
    ⟨hpos, hW'⟩, ?_, rfl⟩
  · rw [hrt, show (0 : Nat) + min n (dynamic_buffer.rtotalOf b.extents) =
      min n (dynamic_buffer.rtotalOf b.extents) from by omega]
  · show dynamic_buffer.contentOf exts' = _
    rw [hc', hrt, hct]

/-- Replacing the extent at the write index with one whose write cursor
only advanced (same backing capacity and read cursor) preserves the deque
invariant — at the same index, and at the next index once the extent is
full.  Covers both extent-level `write` and extent-level `commit`. -/
theorem extsWF_set_advance_w {α : Type} (esize : Nat)
    (E : List (fixed_buffer α)) (wp : Nat) (e' : fixed_buffer α)
    (hW : dynamic_buffer.extsWF esize E wp) (hlt : wp < E.length)
    (hlen : e'.buf.length = (E[wp]).buf.length) (hr : e'.r = (E[wp]).r)
    (hwge : (E[wp]).w ≤ e'.w) (hwle : e'.w ≤ e'.buf.length) :
    dynamic_buffer.extsWF esize (E.set wp e') wp ∧
    (e'.write_window_size = 0 →
      dynamic_buffer.extsWF esize (E.set wp e') (wp + 1)) := by
  obtain ⟨hwp, hWFe, hfull, hempty, hr0, hfront⟩ := hW
  obtain ⟨hcap, hrw, hwcap⟩ := hWFe wp hlt
  have hlenE : (E.set wp e').length = E.length := List.length_set _ _ _
  have hWF1 : fixed_buffer.WF esize e' :=
    ⟨by omega, by omega, by omega⟩
  have hget : ∀ i (hi : i < E.length)
      (hi2 : i < (E.set wp e').length), i ≠ wp →
      (E.set wp e')[i] = E[i] := by
    intro i hi hi2 hne
    exact List.getElem_set_ne (fun hc => hne hc.symm) _
  have hgetwp : ∀ hi2 : wp < (E.set wp e').length,
      (E.set wp e')[wp] = e' :=
    fun hi2 => List.getElem_set_self _
  have hfront1 : ∀ h : 0 < (E.set wp e').length,
      ¬(((E.set wp e')[0]).read_window_size = 0 ∧
        ((E.set wp e')[0]).write_window_size = 0) := by
    intro h0 hc
    by_cases hwp0 : wp = 0
    · subst hwp0
      rw [hgetwp h0] at hc
      obtain ⟨hc1, hc2⟩ := hc
      unfold fixed_buffer.read_window_size at hc1
      unfold fixed_buffer.write_window_size at hc2
      have hfr := hfront (by omega)
      unfold fixed_buffer.read_window_size
        fixed_buffer.write_window_size at hfr
      omega
    · rw [hget 0 (by omega) h0 (fun hc2 => hwp0 hc2.symm)] at hc
      exact hfront (by omega) hc
  constructor
  · refine ⟨by omega, ?_, ?_, ?_, ?_, hfront1⟩
    · intro i hi
      by_cases hiw : i = wp
      · subst hiw
        rw [hgetwp hi]
        exact hWF1
      · rw [hget i (by omega) hi hiw]
        exact hWFe i (by omega)
    · intro i hi hltw
      rw [hget i (by omega) hi (by omega)]
      exact hfull i (by omega) hltw
    · intro i hi hltw
      rw [hget i (by omega) hi (by omega)]
      exact hempty i (by omega) hltw
    · intro i hi hposi
      by_cases hiw : i = wp
      · subst hiw
        rw [hgetwp hi, hr]
        exact hr0 i hlt hposi
      · rw [hget i (by omega) hi hiw]
        exact hr0 i (by omega) hposi
  · intro hfull1
    refine ⟨by omega, ?_, ?_, ?_, ?_, hfront1⟩
    · intro i hi
      by_cases hiw : i = wp
      · subst hiw
        rw [hgetwp hi]
        exact hWF1
      · rw [hget i (by omega) hi hiw]
        exact hWFe i (by omega)
    · intro i hi hltw
      by_cases hiw : i = wp
      · subst hiw
        rw [hgetwp hi]
        exact hfull1
      · rw [hget i (by omega) hi hiw]
        exact hfull i (by omega) (by omega)
    · intro i hi hltw
      rw [hget i (by omega) hi (by omega)]
      exact hempty i (by omega) (by omega)
    · intro i hi hposi
      by_cases hiw : i = wp
      · subst hiw
        rw [hgetwp hi, hr]
        exact hr0 i hlt hposi
      · rw [hget i (by omega) hi hiw]
        exact hr0 i (by omega) hposi

/-- On success, the commit loop preserves the deque invariant. -/
theorem commitLoop_WF {α : Type} (fuel : Nat) :
    ∀ (esize : Nat) (exts : List (fixed_buffer α)) (wp left : Nat)
      (exts' : List (fixed_buffer α)) (wp' : Nat), 0 < esize →
      dynamic_buffer.extsWF esize exts wp →
      commitLoop fuel exts wp left = some (exts', wp') →
      dynamic_buffer.extsWF esize exts' wp' := by
  induction fuel with
  | zero =>
    intro esize exts wp left exts' wp' hpos hW heq
    exact Option.noConfusion heq
  | succ fuel ih =>
    intro esize exts wp left exts' wp' hpos hW heq
    simp only [commitLoop] at heq
    by_cases hlt : wp < exts.length
    · rw [dif_pos hlt] at heq
      simp only [List.get_eq_getElem] at heq
      obtain ⟨hcap, hrw, hwcap⟩ := hW.2.1 wp hlt
      have hp1w : ((exts[wp]).commit left).1.w =
          (exts[wp]).w + min left ((exts[wp]).buf.length - (exts[wp]).w) :=
        rfl
      have hp1r : ((exts[wp]).commit left).1.r = (exts[wp]).r := rfl
      have hp1b : ((exts[wp]).commit left).1.buf = (exts[wp]).buf := rfl
      have hp2 : ((exts[wp]).commit left).2 =
          min left ((exts[wp]).buf.length - (exts[wp]).w) := rfl
      have hset := extsWF_set_advance_w esize exts wp
        ((exts[wp]).commit left).1 hW hlt (by rw [hp1b]) hp1r
        (by rw [hp1w]; omega) (by rw [hp1w, hp1b]; omega)
      by_cases hz : ((exts[wp]).commit left).2 = 0
      · rw [if_pos hz] at heq
        exact Option.noConfusion heq
      · rw [if_neg hz] at heq
        by_cases hstop : left - ((exts[wp]).commit left).2 = 0
        · rw [if_pos hstop] at heq
          obtain ⟨h1, h2⟩ := Prod.mk.injEq .. ▸ Option.some.injEq .. ▸ heq
          rw [← h1, ← h2]
          exact hset.1
        · rw [if_neg hstop] at heq
          refine ih esize (exts.set wp ((exts[wp]).commit left).1) (wp + 1)
            (left - ((exts[wp]).commit left).2) exts' wp' hpos
            (hset.2 ?_) heq
          unfold fixed_buffer.write_window_size
          rw [hp1w, hp1b]
          omega
    · rw [dif_neg hlt] at heq
      exact Option.noConfusion heq

/-- A successful `dynamic_buffer::commit` preserves the invariant and the
extent size, and returns `n` (or `0` when `n = 0`). -/
theorem dcommit_INV {α : Type} [Inhabited α] {b b' : dynamic_buffer α}
    {n k : Nat} (hI : b.INV) (heq : b.commit n = some (b', k)) :
    b'.INV ∧ b'.extent_size = b.extent_size := by
  obtain ⟨hpos, hW⟩ := hI
  unfold dynamic_buffer.commit at heq
  by_cases hn : n = 0
  · rw [if_pos hn] at heq
    obtain ⟨h1, h2⟩ := Prod.mk.injEq .. ▸ Option.some.injEq .. ▸ heq
    rw [← h1]
    exact ⟨⟨hpos, hW⟩, rfl⟩
  · rw [if_neg hn] at heq
    cases hcl : commitLoop (b.extents.length + 1 - b.write_pointer)
        b.extents b.write_pointer n with
    | none =>
      rw [hcl] at heq
      exact Option.noConfusion heq
    | some p =>
      rw [hcl] at heq
      obtain ⟨h1, h2⟩ := Prod.mk.injEq .. ▸ Option.some.injEq .. ▸ heq
      rw [← h1]
      constructor
      · exact ensure_minfree_INV ⟨hpos,
          commitLoop_WF _ _ _ _ _ _ _ hpos hW
            (by rw [hcl])⟩
      · rw [ensure_minfree_extent_size]
  
/-- A successful `dynamic_buffer::writable_ranges` returns the
`ensure_minfree`-normalised state, so it preserves the invariant and the
extent size. -/
theorem dwranges_INV {α : Type} [Inhabited α] {b b' : dynamic_buffer α}
    {spans : List Nat} (hI : b.INV)
    (heq : b.writable_ranges = some (b', spans)) :
    b'.INV ∧ b' = b.ensure_minfree := by
  unfold dynamic_buffer.writable_ranges at heq
  dsimp only at heq
  split at heq
  · split at heq
    · obtain ⟨h1, h2⟩ := Prod.mk.injEq .. ▸ Option.some.injEq .. ▸ heq
      rw [← h1]
      exact ⟨ensure_minfree_INV hI, rfl⟩
    · exact Option.noConfusion heq
  · exact Option.noConfusion heq

/-- Every state reachable through the public operations satisfies the
`dynamic_buffer` invariant. -/
theorem DReachable_INV {α : Type} [Inhabited α] {esize : Nat}
    {b : dynamic_buffer α} (h : dynamic_buffer.DReachable α esize b) :
    b.INV := by
  induction h with
  | new hpos =>
    have hnilE : (dynamic_buffer.new α esize).extents = [] := rfl
    refine ⟨hpos, ?_, ?_, ?_, ?_, ?_, ?_⟩
    · exact Nat.le_refl 0
    · intro i hi
      rw [hnilE] at hi
      exact absurd hi (by simp)
    · intro i hi
      rw [hnilE] at hi
      exact absurd hi (by simp)
    · intro i hi
      rw [hnilE] at hi
      exact absurd hi (by simp)
    · intro i hi
      rw [hnilE] at hi
      exact absurd hi (by simp)
    · intro h0
      rw [hnilE] at h0
      exact absurd h0 (by simp)
  | @write b₀ b₁ src k hr hs ih =>
    obtain ⟨b₂, heq2, hI2, _, _⟩ := dwrite_spec b₀ src ih
    rw [hs] at heq2
    obtain ⟨h1, h2⟩ := Prod.mk.injEq .. ▸ Option.some.injEq .. ▸ heq2
    rw [h1]
    exact hI2
  | @read b₀ b₁ cap out hr hs ih =>
    obtain ⟨b₂, out₂, heq2, hI2, _, _, _, _⟩ := dread_spec b₀ cap ih
    rw [hs] at heq2
    obtain ⟨h1, h2⟩ := Prod.mk.injEq .. ▸ Option.some.injEq .. ▸ heq2
    rw [h1]
    exact hI2
  | @discard b₀ b₁ n k hr hs ih =>
    obtain ⟨b₂, heq2, hI2, _, _⟩ := ddiscard_spec b₀ n ih
    rw [hs] at heq2
    obtain ⟨h1, h2⟩ := Prod.mk.injEq .. ▸ Option.some.injEq .. ▸ heq2
    rw [h1]
    exact hI2
  | commit hr hs ih =>
    exact (dcommit_INV ih hs).1
  | wranges hr hs ih =>
    exact (dwranges_INV ih hs).1

/-! ## Ring buffer: round trip from empty -/

/-- Reading into a destination exactly as large as the unread data of a
buffer whose read pointer sits at the start returns all of it. -/
theorem ring_read_full {α : Type} (b : circular_buffer α) (dst : List α)
    (hWF : b.WF) (hr : b.read_pointer = 0)
    (hdst : dst.length = b.write_pointer) :
    (b.read dst).2.1 = listSlice b.data 0 b.write_pointer ∧
    (b.read dst).2.2 = b.write_pointer := by
  obtain ⟨hr1, hw1⟩ := hWF
  unfold circular_buffer.read
  dsimp only
  by_cases hw0 : b.write_pointer = 0
  · rw [readable_ranges_empty b (by omega)]
    simp only [readRangesLoop]
    constructor
    · have hde : dst = [] := List.length_eq_zero.mp (by omega)
      rw [hde, hw0, listSlice_zero]
    · rw [hw0]
  · rw [readable_ranges_lt b (by omega)]
    simp only [readRangesLoop]
    rw [hr, Nat.sub_zero, Nat.sub_zero, hdst, Nat.min_self,
      if_pos (by omega), Nat.zero_add]
    constructor
    · show copyAt dst 0 (listSlice b.data 0 b.write_pointer) = _
      have hslen : (listSlice b.data 0 b.write_pointer).length =
          b.write_pointer := by
        rw [listSlice_length]
        omega
      unfold copyAt
      rw [List.take_zero, List.nil_append, Nat.zero_add, hslen, ← hdst,
        List.drop_length, List.append_nil]
    · rfl

/-- Writing `n ≤ size` units into a fresh ring buffer of the given size
accepts all of them, and reading them back into an `n`-unit destination
returns exactly the written sequence. -/
theorem ring_round_trip {α : Type} [Inhabited α] (size : Nat)
    (src dst : List α) (h1 : src.length ≤ size)
    (h2 : dst.length = src.length) :
    ∃ b₁ : circular_buffer α,
      (circular_buffer.new α size).write src = some (b₁, src.length) ∧
      (b₁.read dst).2.1 = src ∧ (b₁.read dst).2.2 = src.length := by
  have hN : (circular_buffer.new α size).data.length = size + 1 := by
    show (List.replicate (size + 1) (default : α)).length = size + 1
    rw [List.length_replicate]
  have hr0 : (circular_buffer.new α size).read_pointer = 0 := rfl
  have hw0 : (circular_buffer.new α size).write_pointer = 0 := rfl
  have hwr := writable_ranges_r0 (circular_buffer.new α size) hr0
    (by rw [hw0, hN]; omega)
  rw [hw0, hN, show size + 1 - 1 - 0 = size from by omega] at hwr
  by_cases hsz : size = 0
  · -- size 0: the source must be empty; the single slot stays reserved
    have hsrc : src = [] := List.length_eq_zero.mp (by omega)
    subst hsrc
    rw [if_pos hsz] at hwr
    unfold circular_buffer.write
    dsimp only
    rw [hwr]
    simp only [writeRangesLoop]
    have hWFa : circular_buffer.WF
        { circular_buffer.new α size with
            data := (circular_buffer.new α size).data } :=
      ⟨by dsimp only; rw [hr0, hN]; omega,
       by dsimp only; rw [hw0, hN]; omega⟩
    have hc := commit_eq
      { circular_buffer.new α size with
          data := (circular_buffer.new α size).data } 0 hWFa (Nat.zero_le _)
    have hc2 : circular_buffer.commit
        { circular_buffer.new α size with
            data := (circular_buffer.new α size).data } 0 =
        some ((⟨(circular_buffer.new α size).data, 0, 0⟩ :
          circular_buffer α), 0) := by
      rw [hc]
      have hwp' : ({ circular_buffer.new α size with
          data := (circular_buffer.new α size).data }.write_pointer + 0) %
          { circular_buffer.new α size with
            data := (circular_buffer.new α size).data }.data.length = 0 := by
        dsimp only
        rw [hw0, Nat.add_zero, Nat.zero_mod]
      rw [hwp']
      rfl
    rw [hc2]
    have hread := ring_read_full
      (⟨(circular_buffer.new α size).data, 0, 0⟩ : circular_buffer α) dst
      ⟨by dsimp only; rw [hN]; omega, by dsimp only; rw [hN]; omega⟩
      rfl (by rw [h2, List.length_nil])
    refine ⟨_, rfl, ?_, ?_⟩
    · rw [hread.1]
      exact listSlice_zero _ _
    · rw [hread.2]
      rfl
  · rw [if_neg hsz] at hwr
    unfold circular_buffer.write
    dsimp only
    rw [hwr]
    have hloop : writeRangesLoop [(0, size)]
        (circular_buffer.new α size).data src 0 =
        (copyAt (circular_buffer.new α size).data 0 src, src.length) := by
      simp only [writeRangesLoop]
      rw [Nat.min_eq_left h1, List.drop_length,
        if_pos (show (List.length ([] : List α)) = 0 from rfl),
        List.take_length, Nat.zero_add]
    rw [hloop]
    dsimp only
    have hlen2 : (copyAt (circular_buffer.new α size).data 0 src).length =
        (circular_buffer.new α size).data.length :=
      copyAt_length _ _ _ (by rw [hN]; omega)
    have hWF2 : circular_buffer.WF
        { circular_buffer.new α size with
            data := copyAt (circular_buffer.new α size).data 0 src } :=
      ⟨by dsimp only; rw [hr0, hlen2, hN]; omega,
       by dsimp only; rw [hw0, hlen2, hN]; omega⟩
    have hwt2 : circular_buffer.wtotal
        { circular_buffer.new α size with
            data := copyAt (circular_buffer.new α size).data 0 src } =
        size := by
      rw [wtotal_r0 _ (by dsimp only; exact hr0)
        (by dsimp only; rw [hw0, hlen2, hN]; omega)]
      dsimp only
      rw [hw0, hlen2, hN]
      omega
    have hc := commit_eq
      { circular_buffer.new α size with
          data := copyAt (circular_buffer.new α size).data 0 src }
      src.length hWF2 (by rw [hwt2]; exact h1)
    have hc2 : circular_buffer.commit
        { circular_buffer.new α size with
            data := copyAt (circular_buffer.new α size).data 0 src }
        src.length =
        some ((⟨copyAt (circular_buffer.new α size).data 0 src, 0,
          src.length⟩ : circular_buffer α), src.length) := by
      rw [hc]
      have hwp' : ({ circular_buffer.new α size with
          data := copyAt (circular_buffer.new α size).data 0 src
            }.write_pointer + src.length) %
          { circular_buffer.new α size with
            data := copyAt (circular_buffer.new α size).data 0 src
            }.data.length = src.length := by
        dsimp only
        rw [hw0, hlen2, hN, Nat.zero_add]
        exact Nat.mod_eq_of_lt (by omega)
      rw [hwp']
      rfl
    rw [hc2]
    have hread := ring_read_full
      (⟨copyAt (circular_buffer.new α size).data 0 src, 0, src.length⟩ :
        circular_buffer α) dst
      ⟨by dsimp only; rw [hlen2, hN]; omega,
       by dsimp only; rw [hlen2, hN]; omega⟩
      rfl h2
    refine ⟨_, rfl, ?_, ?_⟩
    · rw [hread.1]
      exact listSlice_copyAt_self _ _ _ (by rw [hN]; omega)
    · rw [hread.2]

/-! ## Claim theorems for the segmented buffer -/

theorem content_length_INV {α : Type} {b : dynamic_buffer α} (hI : b.INV) :
    b.content.length = b.rtotal := by
  apply contentOf_length b.extent_size
  intro e he
  obtain ⟨j, hj, hje⟩ := List.mem_iff_getElem.mp he
  rw [← hje]
  exact hI.2.2.1 j hj

/-- C1: starting from an empty buffer, writing a sequence of `n` units
(with `n` within capacity, which constrains only the ring buffer) and then
reading `n` units back yields exactly the written sequence, in order, for
both the ring buffer and the segmented growable buffer. -/
theorem C1_round_trip {α : Type} [Inhabited α] (src dst : List α)
    (size esize : Nat) (hcap : src.length ≤ size)
    (hdst : dst.length = src.length) (hesize : 0 < esize) :
    (∃ b₁ : circular_buffer α,
      (circular_buffer.new α size).write src = some (b₁, src.length) ∧
      (b₁.read dst).2.1 = src ∧ (b₁.read dst).2.2 = src.length) ∧
    (∃ b₁ b₂ : dynamic_buffer α,
      (dynamic_buffer.new α esize).write src = some (b₁, src.length) ∧
      b₁.read src.length = some (b₂, src)) := by
  refine ⟨ring_round_trip size src dst hcap hdst, ?_⟩
  have hI : (dynamic_buffer.new α esize).INV :=
    DReachable_INV (dynamic_buffer.DReachable.new hesize)
  obtain ⟨b₁, heqw, hI1, hc1, _⟩ := dwrite_spec _ src hI
  have hc0 : (dynamic_buffer.new α esize).content = [] := rfl
  rw [hc0, List.nil_append] at hc1
  obtain ⟨b₂, out, heqr, hI2, hout, _, _, _⟩ := dread_spec b₁ src.length hI1
  have hlen1 : b₁.content.length = b₁.rtotal := content_length_INV hI1
  rw [hc1] at hlen1
  have hmin : min src.length b₁.rtotal = src.length := by omega
  rw [hc1, hmin, List.take_length] at hout
  rw [hout] at heqr
  exact ⟨b₁, b₂, heqw, heqr⟩

theorem C1_round_trip_witness :
    (∃ b₁ : circular_buffer Nat,
      (circular_buffer.new Nat 3).write [1, 2, 3] = some (b₁, 3) ∧
      (b₁.read [0, 0, 0]).2.1 = [1, 2, 3] ∧
      (b₁.read [0, 0, 0]).2.2 = 3) ∧
    (∃ b₁ b₂ : dynamic_buffer Nat,
      (dynamic_buffer.new Nat 2).write [1, 2, 3] = some (b₁, 3) ∧
      b₁.read 3 = some (b₂, [1, 2, 3])) :=
  C1_round_trip [1, 2, 3] [0, 0, 0] 3 2 (by decide) (by decide) (by decide)

/-- C2: segmented-buffer `write` is never short: in every reachable state
it consumes its whole source, returns the source length and appends the
source to the unread content, growing the deque as needed; in particular a
source of `k` times the segment capacity plus one unit is accepted in full
for every `k`. -/
theorem C2_write_never_short {α : Type} [Inhabited α] {esize : Nat}
    {b : dynamic_buffer α} (h : dynamic_buffer.DReachable α esize b) :
    (∀ src : List α, ∃ b', b.write src = some (b', src.length) ∧
      b'.INV ∧ b'.content = b.content ++ src) ∧
    (∀ k : Nat, ∃ b',
      b.write (List.replicate (k * b.extent_size + 1) (default : α)) =
        some (b', k * b.extent_size + 1) ∧
      b'.content = b.content ++
        List.replicate (k * b.extent_size + 1) (default : α)) := by
  have hI := DReachable_INV h
  constructor
  · intro src
    obtain ⟨b', h1, h2, h3, _⟩ := dwrite_spec b src hI
    exact ⟨b', h1, h2, h3⟩
  · intro k
    obtain ⟨b', h1, _, h3, _⟩ := dwrite_spec b
      (List.replicate (k * b.extent_size + 1) default) hI
    rw [List.length_replicate] at h1
    exact ⟨b', h1, h3⟩

theorem C2_write_never_short_witness :
    (∀ src : List Nat, ∃ b',
      (dynamic_buffer.new Nat 2).write src = some (b', src.length) ∧
      b'.INV ∧ b'.content = (dynamic_buffer.new Nat 2).content ++ src) ∧
    (∀ k : Nat, ∃ b',
      (dynamic_buffer.new Nat 2).write
          (List.replicate (k * (dynamic_buffer.new Nat 2).extent_size + 1)
            (default : Nat)) =
        some (b', k * (dynamic_buffer.new Nat 2).extent_size + 1) ∧
      b'.content = (dynamic_buffer.new Nat 2).content ++
        List.replicate (k * (dynamic_buffer.new Nat 2).extent_size + 1)
          (default : Nat)) :=
  C2_write_never_short (dynamic_buffer.DReachable.new (by decide))

/-- C5 counterexample: a reachable state (the result of writing three
units into a fresh four-unit buffer) whose write-target segment (index 0)
has writable capacity `1`, below `minfree = 2` — yet `ensure_minfree`
appends nothing, because the code tests the *last* segment, not the one at
the write index. -/
theorem C5_counterexample :
    (dynamic_buffer.new Nat 4).write [1, 2, 3] =
      some (⟨4, [⟨[1, 2, 3, 0], 0, 3⟩, ⟨[0, 0, 0, 0], 0, 0⟩], 0⟩, 3) ∧
    ((⟨4, [⟨[1, 2, 3, 0], 0, 3⟩, ⟨[0, 0, 0, 0], 0, 0⟩], 0⟩ :
        dynamic_buffer Nat).extents.getD 0
          (fixed_buffer.mkFresh Nat 4)).write_window_size <
      (⟨4, [⟨[1, 2, 3, 0], 0, 3⟩, ⟨[0, 0, 0, 0], 0, 0⟩], 0⟩ :
        dynamic_buffer Nat).minfree ∧
    (⟨4, [⟨[1, 2, 3, 0], 0, 3⟩, ⟨[0, 0, 0, 0], 0, 0⟩], 0⟩ :
        dynamic_buffer Nat).ensure_minfree =
      ⟨4, [⟨[1, 2, 3, 0], 0, 3⟩, ⟨[0, 0, 0, 0], 0, 0⟩], 0⟩ := by
  decide

/-- C5 (amended): `ensure_minfree` appends a fresh segment exactly when no
segment exists or the *last* segment's writable capacity is below
`minfree`; when it appends, it advances the write index exactly when the
segment the index points at has no writable capacity left, and when it
does not append it leaves the buffer unchanged. -/
theorem C5_ensure_minfree_exact {α : Type} [Inhabited α]
    (b : dynamic_buffer α) :
    ((b.extents = [] ∨ ∃ e, b.extents.getLast? = some e ∧
        e.write_window_size < b.minfree) →
      b.ensure_minfree = { b with
        extents := b.extents ++ [fixed_buffer.mkFresh α b.extent_size],
        write_pointer :=
          if ((b.extents ++ [fixed_buffer.mkFresh α b.extent_size]).getD
                b.write_pointer
                (fixed_buffer.mkFresh α b.extent_size)).write_window_size
              = 0
          then b.write_pointer + 1 else b.write_pointer }) ∧
    (∀ e, b.extents.getLast? = some e →
      b.minfree ≤ e.write_window_size → b.ensure_minfree = b) := by
  constructor
  · intro h
    have hneed : (match b.extents.getLast? with
        | none => true
        | some e => decide (e.write_window_size < b.minfree)) = true := by
      rcases h with hnil | ⟨e, hl, hlt⟩
      · rw [hnil]
        simp
      · rw [hl]
        exact decide_eq_true hlt
    unfold dynamic_buffer.ensure_minfree
    dsimp only
    rw [if_pos hneed]
  · intro e hl hge
    have hneed : (match b.extents.getLast? with
        | none => true
        | some e => decide (e.write_window_size < b.minfree)) = false := by
      rw [hl]
      exact decide_eq_false (by omega)
    unfold dynamic_buffer.ensure_minfree
    dsimp only
    rw [hneed, if_neg (by simp)]

/-- C6 counterexample: `commit(0)` returns before calling
`ensure_minfree`: on a fresh buffer it succeeds yet leaves the segment
deque empty, so not every commit is followed by `ensure_minfree`. -/
theorem C6_counterexample :
    (dynamic_buffer.new Nat 4).commit 0 =
      some (dynamic_buffer.new Nat 4, 0) ∧
    (dynamic_buffer.new Nat 4).extents = [] := by
  decide

/-- C6 (amended): `ensure_minfree` runs after every successful commit of
`n ≥ 1` units and at the start of every successful `writable_ranges`
query, so after such a call the deque is nonempty and its last segment has
at least `minfree` writable units. -/
theorem C6_ensure_minfree_after {α : Type} [Inhabited α] :
    (∀ (b b' : dynamic_buffer α) (n k : Nat), 0 < b.extent_size → n ≠ 0 →
      b.commit n = some (b', k) →
      b'.extents ≠ [] ∧ ∃ e, b'.extents.getLast? = some e ∧
        b'.minfree ≤ e.write_window_size) ∧
    (∀ (b b' : dynamic_buffer α) (spans : List Nat), 0 < b.extent_size →
      b.writable_ranges = some (b', spans) →
      b'.extents ≠ [] ∧ ∃ e, b'.extents.getLast? = some e ∧
        b'.minfree ≤ e.write_window_size) := by
  constructor
  · intro b b' n k hpos hn heq
    unfold dynamic_buffer.commit at heq
    rw [if_neg hn] at heq
    cases hcl : commitLoop (b.extents.length + 1 - b.write_pointer)
        b.extents b.write_pointer n with
    | none =>
      rw [hcl] at heq
      exact Option.noConfusion heq
    | some p =>
      rw [hcl] at heq
      obtain ⟨h1, h2⟩ := Prod.mk.injEq .. ▸ Option.some.injEq .. ▸ heq
      have hres := ensure_minfree_extents_ne_nil
        { b with extents := p.1, write_pointer := p.2 } hpos
      rw [h1] at hres
      have hmf : b'.minfree =
          dynamic_buffer.minfree
            { b with extents := p.1, write_pointer := p.2 } := by
        show b'.extent_size / 2 = b.extent_size / 2
        rw [← h1, ensure_minfree_extent_size]
      rw [← hmf] at hres
      exact hres
  · intro b b' spans hpos heq
    unfold dynamic_buffer.writable_ranges at heq
    dsimp only at heq
    split at heq
    · split at heq
      · obtain ⟨h1, h2⟩ := Prod.mk.injEq .. ▸ Option.some.injEq .. ▸ heq
        have hres := ensure_minfree_extents_ne_nil b hpos
        rw [h1] at hres
        have hmf : b'.minfree = b.minfree := by
          show b'.extent_size / 2 = b.extent_size / 2
          rw [← h1, ensure_minfree_extent_size]
        rw [← hmf] at hres
        exact hres
      · exact Option.noConfusion heq
    · exact Option.noConfusion heq

/-- C8: for both buffers, in every reachable state `discard(n)` removes
`min n rtotal` units from the front and returns that count; and on any
state with no unread data (freshly constructed or fully drained), `read`
and `discard` return zero and `readable_ranges` is empty — never an
error. -/
theorem C8_discard_and_empty {α : Type} [Inhabited α] :
    (∀ (size : Nat) (b : circular_buffer α),
      circular_buffer.Reachable α size b → ∀ n,
      (b.discard n).2 = min n b.rtotal ∧
      (b.discard n).1.rcontent = b.rcontent.drop (min n b.rtotal)) ∧
    (∀ (size : Nat) (b : circular_buffer α),
      circular_buffer.Reachable α size b → b.rtotal = 0 →
      b.readable_ranges = [] ∧ (∀ n, (b.discard n).2 = 0) ∧
      (∀ dst, (b.read dst).2.2 = 0)) ∧
    (∀ (esize : Nat) (b : dynamic_buffer α),
      dynamic_buffer.DReachable α esize b → ∀ n,
      ∃ b', b.discard n = some (b', min n b.rtotal) ∧
        b'.content = b.content.drop (min n b.rtotal)) ∧
    (∀ (esize : Nat) (b : dynamic_buffer α),
      dynamic_buffer.DReachable α esize b → b.rtotal = 0 →
      b.readable_ranges = [] ∧
      (∀ n, ∃ b', b.discard n = some (b', 0)) ∧
      (∀ cap, ∃ b', b.read cap = some (b', []))) := by
  refine ⟨?_, ?_, ?_, ?_⟩
  · intro size b hr n
    have hWF := (reachable_wf hr).1
    constructor
    · rw [discard_eq b n hWF]
    · rw [discard_eq b n hWF]
      exact rcontent_advance_read b (min n b.rtotal) hWF
        (Nat.min_le_right _ _)
  · intro size b hr h0
    have hWF := (reachable_wf hr).1
    obtain ⟨hrl, hwl⟩ := hWF
    have hrw : b.read_pointer = b.write_pointer := by
      rcases Nat.lt_trichotomy b.read_pointer b.write_pointer
        with h | h | h
      · rw [rtotal_lt b h] at h0
        omega
      · exact h
      · rw [rtotal_gt b h hrl] at h0
        omega
    refine ⟨readable_ranges_empty b hrw, ?_, ?_⟩
    · intro n
      rw [discard_eq b n ⟨hrl, hwl⟩, h0, Nat.min_zero]
    · intro dst
      unfold circular_buffer.read
      dsimp only
      rw [readable_ranges_empty b hrw]
      simp only [readRangesLoop]
  · intro esize b hr n
    obtain ⟨b', heq, _, hcont, _⟩ := ddiscard_spec b n (DReachable_INV hr)
    exact ⟨b', heq, hcont⟩
  · intro esize b hr h0
    have hI := DReachable_INV hr
    have hall : ∀ e ∈ b.extents, e.read_window_size = 0 := by
      intro e he
      have hsum : (b.extents.map fixed_buffer.read_window_size).sum = 0 := h0
      exact List.sum_eq_zero_iff.mp hsum _ (List.mem_map_of_mem _ he)
    refine ⟨?_, ?_, ?_⟩
    · unfold dynamic_buffer.readable_ranges
      rw [List.filter_eq_nil_iff.mpr (fun e he => by simp [hall e he]),
        List.map_nil]
    · intro n
      obtain ⟨b', heq, _⟩ := ddiscard_spec b n hI
      rw [h0, Nat.min_zero] at heq
      exact ⟨b', heq⟩
    · intro cap
      obtain ⟨b', out, heq, _, hout, _⟩ := dread_spec b cap hI
      rw [h0, Nat.min_zero, List.take_zero] at hout
      rw [hout] at heq
      exact ⟨b', heq⟩

/-- C10: in every reachable state of the segmented buffer, if the front
segment has no readable data then no segment has readable data — the whole
buffer is drained — so `read` and `discard`, which stop at an empty front
segment, skip no data and simply return nothing. -/
theorem C10_front_empty_all {α : Type} [Inhabited α] {esize : Nat}
    {b : dynamic_buffer α} (h : dynamic_buffer.DReachable α esize b)
    (front : fixed_buffer α) (rest : List (fixed_buffer α))
    (hE : b.extents = front :: rest)
    (h0 : front.read_window_size = 0) :
    (∀ e ∈ b.extents, e.read_window_size = 0) ∧
    b.content = [] ∧ b.rtotal = 0 ∧
    (∀ cap, ∃ b', b.read cap = some (b', [])) ∧
    (∀ n, ∃ b', b.discard n = some (b', 0)) := by
  have hI := DReachable_INV h
  obtain ⟨hpos, hW⟩ := hI
  rw [hE] at hW
  obtain ⟨hall, hc, hrt⟩ := front_zero_all hpos hW h0
  have hcb : b.content = [] := by
    show dynamic_buffer.contentOf b.extents = []
    rw [hE]
    exact hc
  have hrb : b.rtotal = 0 := by
    show dynamic_buffer.rtotalOf b.extents = 0
    rw [hE]
    exact hrt
  refine ⟨by rw [hE]; exact hall, hcb, hrb, ?_, ?_⟩
  · intro cap
    obtain ⟨b', out, heq, _, hout, _⟩ := dread_spec b cap ⟨hpos, by
      rw [hE]; exact hW⟩
    rw [hrb, Nat.min_zero, List.take_zero] at hout
    rw [hout] at heq
    exact ⟨b', heq⟩
  · intro n
    obtain ⟨b', heq, _⟩ := ddiscard_spec b n ⟨hpos, by rw [hE]; exact hW⟩
    rw [hrb, Nat.min_zero] at heq
    exact ⟨b', heq⟩

theorem C10_front_empty_all_witness :
    (∀ e ∈ (⟨2, [⟨[0, 0], 0, 0⟩], 0⟩ : dynamic_buffer Nat).extents,
      e.read_window_size = 0) ∧
    (⟨2, [⟨[0, 0], 0, 0⟩], 0⟩ : dynamic_buffer Nat).content = [] ∧
    (⟨2, [⟨[0, 0], 0, 0⟩], 0⟩ : dynamic_buffer Nat).rtotal = 0 ∧
    (∀ cap, ∃ b', (⟨2, [⟨[0, 0], 0, 0⟩], 0⟩ :
      dynamic_buffer Nat).read cap = some (b', [])) ∧
    (∀ n, ∃ b', (⟨2, [⟨[0, 0], 0, 0⟩], 0⟩ :
      dynamic_buffer Nat).discard n = some (b', 0)) :=
  C10_front_empty_all
    (dynamic_buffer.DReachable.wranges
      (dynamic_buffer.DReachable.new (by decide))
      (by decide :
        (dynamic_buffer.new Nat 2).writable_ranges =
          some (⟨2, [⟨[0, 0], 0, 0⟩], 0⟩, [2])))
    ⟨[0, 0], 0, 0⟩ [] rfl (by decide)

end sk
